import Mathlib

/-!
Verification of `datalake.py`, a small local data-lake manager.

Strings are modelled as `List Char` (ASCII range of Python `str`).
Pure functions of the source are translated directly; the filesystem and
the DuckDB engine are modelled explicitly where the source touches them.
-/

set_option maxHeartbeats 1000000
set_option maxRecDepth 100000

/-- Characters used to build paths and quoted literals without relying on
escape sequences: the single quote (39). -/
def squote : Char := Char.ofNat 39

/-- The double quote character (34). -/
def dquote : Char := Char.ofNat 34

/-- The backslash character (92). -/
def bslash : Char := Char.ofNat 92

/-- The opening curly brace character (123). -/
def lcurly : Char := Char.ofNat 123

/-- The closing curly brace character (125). -/
def rcurly : Char := Char.ofNat 125

/-- The opening square bracket character (91). -/
def lsquare : Char := Char.ofNat 91

/-- The closing square bracket character (93). -/
def rsquare : Char := Char.ofNat 93

/-- The newline character (10). -/
def nlChar : Char := Char.ofNat 10

/-- Model of the regex class `\w` of Python's `re` module, restricted to the
ASCII range actually used by the program: letters, digits and underscore. -/
def isWordChar (c : Char) : Bool :=
  (('a' ≤ c && c ≤ 'z') || ('A' ≤ c && c ≤ 'Z') || ('0' ≤ c && c ≤ '9') || c = '_')

/-- A piece of a string as the word-boundary regexes of `query_sql` see it:
either a maximal run of word characters (a token) or a single non-word
character. -/
inductive Piece where
  | tok (t : List Char)
  | chr (c : Char)
deriving DecidableEq, Repr

/-- The characters a piece stands for. -/
def Piece.flat : Piece → List Char
  | .tok t => t
  | .chr c => [c]

/-- Auxiliary scanner: `acc` holds the (reversed) word characters of the run
currently being read. -/
def piecesAux : List Char → List Char → List Piece
  | [], [] => []
  | [], a :: as => [.tok (a :: as).reverse]
  | c :: cs, acc =>
    if isWordChar c then piecesAux cs (c :: acc)
    else
      match acc with
      | [] => .chr c :: piecesAux cs []
      | a :: as => .tok ((a :: as).reverse) :: .chr c :: piecesAux cs []

/-- Decompose a string into maximal word-character runs and the single
non-word characters between them. -/
def pieces (s : List Char) : List Piece := piecesAux s []

/-- Concatenate a piece list back into a string. -/
def flattenP (ps : List Piece) : List Char := ps.flatMap Piece.flat

/-- Model of `re.findall(r'\b\w+\b', sql)` (datalake.py line 156): the list of
maximal word-character runs of `sql`.  The Python code wraps the result in a
`set`; the model uses list membership for the same purpose. -/
def wordTokens (s : List Char) : List (List Char) :=
  (pieces s).filterMap (fun p => match p with | .tok t => some t | .chr _ => none)

/-- List membership test used to model Python `in` on sets and dict keys. -/
def memb (x : List Char) : List (List Char) → Bool
  | [] => false
  | y :: ys => if y = x then true else memb x ys

/-- First value bound to a key in an association list; models Python dict
lookup `d[k]` / `d.get(k)` (dict keys are unique, so first = only). -/
def assoc? {α : Type} (k : List Char) : List (List Char × α) → Option α
  | [] => none
  | (k', v) :: rest => if k' = k then some v else assoc? k rest

/-- Key-membership in an association list; models Python `k in d`. -/
def hasKey {α : Type} (kvs : List (List Char × α)) (k : List Char) : Bool :=
  match kvs with
  | [] => false
  | (k', _) :: rest => if k' = k then true else hasKey rest k

/-- Model of `re.sub(rf'\b{name}\b', repl, s)` (datalake.py line 165) for a
`name` consisting of word characters (every substituted name is drawn from
the token set, so this always holds at the call site): a pattern of word
characters bracketed by `\b` matches exactly the maximal word runs equal to
`name`, so the substitution replaces exactly those runs.  The replacement
string is inserted verbatim (it is a forward-slash path with no backslash
escapes). -/
def subWord (name repl : List Char) (s : List Char) : List Char :=
  (pieces s).flatMap (fun p =>
    match p with
    | .tok t => if t = name then repl else t
    | .chr c => [c])

/-- `DATA_LAKE_ROOT = Path("my-datalake")` (datalake.py line 9). -/
def dataLakeRoot : List Char := ("my-datalake").toList

/-- Model of `(DATA_LAKE_ROOT / meta["file"]).as_posix()` (line 164) for the
relative forward-slash paths stored in the catalog. -/
def resolvedPath (file : List Char) : List Char := dataLakeRoot ++ '/' :: file

/-- Model of `f"'{file_path}'"` (line 165): the resolved path wrapped in
single quotes. -/
def quotedPath (file : List Char) : List Char :=
  squote :: resolvedPath file ++ [squote]

/-- Model of `set(catalog.keys()).intersection(tokens)` followed by the
substitution loop's iteration (lines 159-162), projected to the
name → `meta["file"]` pairs the loop reads.  Python iterates the matched
set in an unspecified hash order; the model fixes catalog (insertion)
order.  The double-substitution hazard exhibited by the C1 counterexample
below occurs in either order. -/
def matchedEntries (cat : List (List Char × List Char)) (sql : List Char) :
    List (List Char × List Char) :=
  cat.filter (fun p => memb p.1 (wordTokens sql))

/-- The rewriting loop of `query_sql` (datalake.py lines 156-165): for each
catalog name appearing as a whole token of `sql`, substitute every
whole-word occurrence by the quoted resolved path, one `re.sub` pass per
matched name over the already-rewritten string. -/
def rewriteSql (cat : List (List Char × List Char)) (sql : List Char) : List Char :=
  (matchedEntries cat sql).foldl (fun s p => subWord p.1 (quotedPath p.2) s) sql

/-- Modelled from the spec's words (§4.4 steps 1-3), for comparison with
`rewriteSql`: a single pass over the token/separator decomposition of the
original SQL in which each whole token equal to a catalog name is replaced
by that entry's quoted resolved path and everything else is kept. -/
def specRewrite (cat : List (List Char × List Char)) (sql : List Char) : List Char :=
  (pieces sql).flatMap (fun p =>
    match p with
    | .tok t =>
      match assoc? t cat with
      | some file => quotedPath file
      | none => t
    | .chr c => [c])

/-! ### Structure of `pieces` decompositions -/

/-- Is a piece a token? -/
def isTokP : Piece → Bool
  | .tok _ => true
  | .chr _ => false

/-- Well-formedness of a single piece: tokens are nonempty word runs, single
characters are non-word. -/
def pieceWf : Piece → Bool
  | .tok t => !t.isEmpty && t.all isWordChar
  | .chr c => !isWordChar c

/-- Adjacent pieces are never both tokens (tokens are maximal runs). -/
def noTT (p q : Piece) : Prop := ¬(isTokP p = true ∧ isTokP q = true)

/-- The invariant of piece lists produced by `pieces`. -/
def ValidP (ps : List Piece) : Prop :=
  (∀ p ∈ ps, pieceWf p = true) ∧ List.Chain' noTT ps

/-- The token pieces of a piece list. -/
def toksP (ps : List Piece) : List (List Char) :=
  ps.filterMap (fun p => match p with | .tok t => some t | .chr _ => none)

theorem wordTokens_eq_toksP (s : List Char) : wordTokens s = toksP (pieces s) := rfl

theorem flattenP_piecesAux (s : List Char) :
    ∀ acc, flattenP (piecesAux s acc) = acc.reverse ++ s := by
  induction s with
  | nil =>
    intro acc
    cases acc <;> simp [piecesAux, flattenP, Piece.flat]
  | cons c cs ih =>
    intro acc
    have h0 := ih []
    simp only [flattenP] at h0
    by_cases h : isWordChar c
    · simp [piecesAux, h, ih]
    · cases acc with
      | nil => simp [piecesAux, h, flattenP, Piece.flat, h0]
      | cons a as =>
        simp only [piecesAux, h, if_false, Bool.false_eq_true]
        simp [flattenP, Piece.flat, h0]

/-- Reading the pieces of a string back yields the string. -/
theorem flattenP_pieces (s : List Char) : flattenP (pieces s) = s := by
  simpa using flattenP_piecesAux s []

theorem pieceWf_piecesAux (s : List Char) :
    ∀ acc, acc.all isWordChar → ∀ p ∈ piecesAux s acc, pieceWf p = true := by
  induction s with
  | nil =>
    intro acc hacc p hp
    cases acc with
    | nil => simp [piecesAux] at hp
    | cons a as =>
      simp [piecesAux] at hp
      subst hp
      simp only [pieceWf, List.all_reverse]
      simp [List.all_eq_true] at hacc ⊢
      tauto
  | cons c cs ih =>
    intro acc hacc p hp
    by_cases h : isWordChar c
    · exact ih (c :: acc) (by simp [hacc, h]) p (by simpa [piecesAux, h] using hp)
    · cases acc with
      | nil =>
        simp [piecesAux, h] at hp
        rcases hp with hp | hp
        · subst hp; simp [pieceWf, h]
        · exact ih [] (by simp) p hp
      | cons a as =>
        simp only [piecesAux, h, if_false, Bool.false_eq_true] at hp
        simp at hp
        rcases hp with hp | hp | hp
        · subst hp
          simp only [pieceWf, List.all_reverse]
          simp [List.all_eq_true] at hacc ⊢
          tauto
        · subst hp; simp [pieceWf, h]
        · exact ih [] (by simp) p hp

theorem chain'_piecesAux (s : List Char) :
    ∀ acc, List.Chain' noTT (piecesAux s acc) := by
  induction s with
  | nil =>
    intro acc
    cases acc <;> simp [piecesAux]
  | cons c cs ih =>
    intro acc
    by_cases h : isWordChar c
    · simpa [piecesAux, h] using ih (c :: acc)
    · cases acc with
      | nil =>
        simp only [piecesAux, h, if_false, Bool.false_eq_true]
        exact List.chain'_cons'.2 ⟨fun y _ => by simp [noTT, isTokP], ih []⟩
      | cons a as =>
        simp only [piecesAux, h, if_false, Bool.false_eq_true]
        refine List.chain'_cons'.2 ⟨fun y hy => ?_, List.chain'_cons'.2 ⟨fun y _ => by simp [noTT, isTokP], ih []⟩⟩
        simp at hy
        subst hy
        simp [noTT, isTokP]

/-- `pieces` always produces a valid decomposition. -/
theorem validP_pieces (s : List Char) : ValidP (pieces s) :=
  ⟨pieceWf_piecesAux s [] (by simp), chain'_piecesAux s []⟩

/-! ### Substitution at the piece level -/

/-- The effect of one whole-word substitution on a single piece. -/
def expandPiece (name : List Char) (rps : List Piece) (p : Piece) : List Piece :=
  match p with
  | .tok t => if t = name then rps else [p]
  | .chr _ => [p]

/-- One whole-word substitution, expressed on piece lists. -/
def pieceSub (name : List Char) (rps ps : List Piece) : List Piece :=
  ps.flatMap (expandPiece name rps)

/-- Congruence for `flatMap` over the members of the list. -/
theorem flatMap_congr_mem {α β : Type} (l : List α) (f g : α → List β)
    (h : ∀ x ∈ l, f x = g x) : l.flatMap f = l.flatMap g := by
  induction l with
  | nil => rfl
  | cons a l ih =>
    simp only [List.flatMap_cons, h a (by simp), ih (fun x hx => h x (by simp [hx]))]

/-- `subWord` is `pieceSub` up to flattening. -/
theorem subWord_eq_flattenP (name repl s : List Char) :
    subWord name repl s = flattenP (pieceSub name (pieces repl) (pieces s)) := by
  unfold subWord flattenP pieceSub
  rw [List.flatMap_assoc]
  apply flatMap_congr_mem
  intro p _
  cases p with
  | tok t =>
    by_cases ht : t = name
    · simpa [expandPiece, ht] using (flattenP_pieces repl).symm
    · simp [expandPiece, ht, Piece.flat]
  | chr c => simp [expandPiece, Piece.flat]

/-- Members of a substituted list come from the original or the replacement. -/
theorem mem_pieceSub {name : List Char} {rps ps : List Piece} {p : Piece}
    (h : p ∈ pieceSub name rps ps) : p ∈ ps ∨ p ∈ rps := by
  rcases List.mem_flatMap.1 h with ⟨q, hq, hp⟩
  cases q with
  | tok t =>
    by_cases ht : t = name
    · simp [expandPiece, ht] at hp; exact Or.inr hp
    · simp [expandPiece, ht] at hp; subst hp; exact Or.inl hq
  | chr c =>
    simp [expandPiece] at hp; subst hp; exact Or.inl hq

theorem expandPiece_ne_nil {name : List Char} {rps : List Piece} (hr : rps ≠ [])
    (p : Piece) : expandPiece name rps p ≠ [] := by
  cases p with
  | tok t =>
    by_cases ht : t = name
    · simpa [expandPiece, ht] using hr
    · simp [expandPiece, ht]
  | chr c => simp [expandPiece]

/-- Adjacency is preserved by piece substitution: the original decomposition
never has two adjacent tokens, so every splice boundary has a non-token on
one side. -/
theorem chain'_pieceSub (name : List Char) (rps : List Piece)
    (hr : List.Chain' noTT rps) (hrne : rps ≠ []) :
    ∀ ps, List.Chain' noTT ps → List.Chain' noTT (pieceSub name rps ps) := by
  intro ps hps
  induction ps with
  | nil => simp [pieceSub]
  | cons q ps ih =>
    have hq : List.Chain' noTT (expandPiece name rps q) := by
      cases q with
      | tok t =>
        by_cases ht : t = name
        · simpa [expandPiece, ht] using hr
        · simp [expandPiece, ht]
      | chr c => simp [expandPiece]
    have hps' : List.Chain' noTT ps := (List.chain'_cons'.1 hps).2
    have hsub : List.Chain' noTT (pieceSub name rps ps) := ih hps'
    have : pieceSub name rps (q :: ps) = expandPiece name rps q ++ pieceSub name rps ps := by
      simp [pieceSub]
    rw [this]
    refine List.chain'_append.2 ⟨hq, hsub, ?_⟩
    intro x hx y hy
    cases ps with
    | nil => simp [pieceSub] at hy
    | cons q' ps' =>
      -- the head of the substituted tail is the head of `expandPiece q'`
      have hyq : y ∈ (expandPiece name rps q').head? := by
        have h1 : pieceSub name rps (q' :: ps') =
            expandPiece name rps q' ++ pieceSub name rps ps' := by simp [pieceSub]
        rw [h1, List.head?_append_of_ne_nil _ (expandPiece_ne_nil hrne q')] at hy
        exact hy
      have hqq' : noTT q q' := (List.chain'_cons.1 hps).1
      cases q with
      | chr c =>
        -- x is the kept character: never a token
        have hx' : Piece.chr c = x := by simpa [expandPiece] using hx
        subst hx'
        simp [noTT, isTokP]
      | tok t =>
        by_cases ht : t = name
        · -- q was replaced; q' must be a non-token, hence kept
          cases q' with
          | tok t' => exact absurd ⟨rfl, rfl⟩ hqq'
          | chr c' =>
            have hy' : Piece.chr c' = y := by simpa [expandPiece] using hyq
            subst hy'
            simp [noTT, isTokP]
        · -- q was kept
          have hx' : Piece.tok t = x := by simpa [expandPiece, ht] using hx
          subst hx'
          cases q' with
          | tok t' =>
            -- two adjacent tokens in the original: impossible
            exact absurd ⟨rfl, rfl⟩ hqq'
          | chr c' =>
            have hy' : Piece.chr c' = y := by simpa [expandPiece] using hyq
            subst hy'
            simp [noTT, isTokP]

/-- Piece substitution preserves validity of the decomposition. -/
theorem validP_pieceSub (name : List Char) (rps ps : List Piece)
    (hrv : ∀ p ∈ rps, pieceWf p = true) (hrc : List.Chain' noTT rps)
    (hrne : rps ≠ []) (hps : ValidP ps) : ValidP (pieceSub name rps ps) := by
  refine ⟨fun p hp => ?_, chain'_pieceSub name rps hrc hrne ps hps.2⟩
  rcases mem_pieceSub hp with h | h
  · exact hps.1 p h
  · exact hrv p h

/-- Scanning a word run extends the accumulator. -/
theorem piecesAux_word_append (t : List Char) (ht : ∀ c ∈ t, isWordChar c = true) :
    ∀ (s acc : List Char), piecesAux (t ++ s) acc = piecesAux s (t.reverse ++ acc) := by
  induction t with
  | nil => intro s acc; simp
  | cons a t ih =>
    intro s acc
    have ha : isWordChar a = true := ht a (by simp)
    have ht' : ∀ c ∈ t, isWordChar c = true := fun c hc => ht c (by simp [hc])
    show piecesAux (a :: (t ++ s)) acc = piecesAux s ((a :: t).reverse ++ acc)
    simp only [piecesAux, ha, if_true]
    rw [ih ht' s (a :: acc)]
    simp

/-- Parsing the flattening of a valid decomposition gives it back. -/
theorem pieces_flattenP : ∀ ps, ValidP ps → pieces (flattenP ps) = ps := by
  intro ps
  induction ps with
  | nil => intro _; rfl
  | cons p ps ih =>
    intro hv
    have hwf := hv.1 p (by simp)
    have hv' : ValidP ps := ⟨fun q hq => hv.1 q (by simp [hq]), (List.chain'_cons'.1 hv.2).2⟩
    cases p with
    | chr c =>
      have hc : isWordChar c = false := by
        simpa [pieceWf] using hwf
      have : flattenP (Piece.chr c :: ps) = c :: flattenP ps := by
        simp [flattenP, Piece.flat]
      rw [this]
      show piecesAux (c :: flattenP ps) [] = Piece.chr c :: ps
      simp only [piecesAux, hc, Bool.false_eq_true, if_false]
      rw [show piecesAux (flattenP ps) [] = pieces (flattenP ps) from rfl, ih hv']
    | tok t =>
      have htne : t ≠ [] := by
        intro he; subst he; simp [pieceWf] at hwf
      have htw : ∀ c ∈ t, isWordChar c = true := by
        simp [pieceWf, List.all_eq_true] at hwf
        exact hwf.2
      have hfl : flattenP (Piece.tok t :: ps) = t ++ flattenP ps := by
        simp [flattenP, Piece.flat]
      rw [hfl]
      show piecesAux (t ++ flattenP ps) [] = Piece.tok t :: ps
      rw [piecesAux_word_append t htw (flattenP ps) []]
      obtain ⟨a, as, hrev⟩ : ∃ a as, t.reverse = a :: as := by
        cases hr : t.reverse with
        | nil => exact absurd (by simpa using hr) htne
        | cons a as => exact ⟨a, as, rfl⟩
      cases ps with
      | nil =>
        simp only [flattenP, List.flatMap_nil, List.append_nil, hrev]
        show piecesAux [] (a :: as) = [Piece.tok t]
        simp only [piecesAux]
        rw [← hrev, List.reverse_reverse]
      | cons q ps' =>
        cases q with
        | tok u =>
          exact absurd ⟨rfl, rfl⟩ ((List.chain'_cons.1 hv.2).1)
        | chr c =>
          have hc : isWordChar c = false := by
            simpa [pieceWf] using hv.1 (Piece.chr c) (by simp)
          have hfl' : flattenP (Piece.chr c :: ps') = c :: flattenP ps' := by
            simp [flattenP, Piece.flat]
          rw [hfl', List.append_nil, hrev]
          show piecesAux (c :: flattenP ps') (a :: as) =
            Piece.tok t :: Piece.chr c :: ps'
          simp only [piecesAux, hc, Bool.false_eq_true, if_false]
          rw [← hrev, List.reverse_reverse]
          have hih := ih hv'
          rw [hfl'] at hih
          have hstep : Piece.chr c :: piecesAux (flattenP ps') [] = Piece.chr c :: ps' := by
            have hx : pieces (c :: flattenP ps') = Piece.chr c :: piecesAux (flattenP ps') [] := by
              show piecesAux (c :: flattenP ps') [] = _
              simp only [piecesAux, hc, Bool.false_eq_true, if_false]
            rw [← hx, hih]
          injection hstep with h1 h2
          rw [h2]

/-- A nonempty string has a nonempty decomposition. -/
theorem pieces_ne_nil {s : List Char} (h : s ≠ []) : pieces s ≠ [] := by
  intro he
  apply h
  rw [← flattenP_pieces s, he]
  rfl

/-! ### Collapsing the substitution passes into a single pass -/

/-- The effect, on one piece, of substituting for every name of `L` at once. -/
def onePassExpand (L : List (List Char × List Piece)) (p : Piece) : List Piece :=
  match p with
  | .tok t =>
    match assoc? t L with
    | some r => r
    | none => [p]
  | .chr _ => [p]

/-- Substituting for every name of `L` in a single pass over the pieces. -/
def onePassSub (L : List (List Char × List Piece)) (ps : List Piece) : List Piece :=
  ps.flatMap (onePassExpand L)

theorem assoc?_mem {α : Type} {k : List Char} {l : List (List Char × α)} {v : α}
    (h : assoc? k l = some v) : (k, v) ∈ l := by
  induction l with
  | nil => simp [assoc?] at h
  | cons kv l ih =>
    obtain ⟨k', v'⟩ := kv
    by_cases hk : k' = k
    · subst hk
      simp [assoc?] at h
      subst h
      simp
    · simp [assoc?, hk] at h
      simp [ih h]

/-- If no token of `ps` is a name of `L`, the one-pass substitution is inert. -/
theorem onePassSub_id (L : List (List Char × List Piece)) (ps : List Piece)
    (h : ∀ t ∈ toksP ps, assoc? t L = none) : onePassSub L ps = ps := by
  induction ps with
  | nil => rfl
  | cons p ps ih =>
    have hps : onePassSub L ps = ps := by
      apply ih
      intro t ht
      apply h
      cases p <;> simp [toksP, List.filterMap_cons] at ht ⊢ <;> simp [toksP] at * <;> tauto
    cases p with
    | tok t =>
      have hn : assoc? t L = none := h t (by simp [toksP, List.filterMap_cons])
      simp [onePassSub, List.flatMap_cons, onePassExpand, hn] at *
      simpa [onePassSub] using hps
    | chr c =>
      simp only [onePassSub, List.flatMap_cons, onePassExpand]
      simpa [onePassSub] using hps

/-- Sequential whole-word substitutions for distinct, non-interfering names
coincide with the single simultaneous pass. -/
theorem foldl_pieceSub_eq_onePassSub (L : List (List Char × List Piece))
    (hint : ∀ pr ∈ L, ∀ qr ∈ L, pr.1 ∉ toksP qr.2) :
    ∀ ps, L.foldl (fun ps pr => pieceSub pr.1 pr.2 ps) ps = onePassSub L ps := by
  induction L with
  | nil =>
    intro ps
    simp only [List.foldl_nil]
    symm
    apply onePassSub_id
    intro t _
    rfl
  | cons nr L ih =>
    intro ps
    obtain ⟨n, r⟩ := nr
    have hint' : ∀ pr ∈ L, ∀ qr ∈ L, pr.1 ∉ toksP qr.2 := by
      intro pr hpr qr hqr
      exact hint pr (by simp [hpr]) qr (by simp [hqr])
    simp only [List.foldl_cons]
    rw [ih hint' (pieceSub n r ps)]
    show onePassSub L (ps.flatMap (expandPiece n r)) = onePassSub ((n, r) :: L) ps
    unfold onePassSub
    rw [List.flatMap_assoc]
    apply flatMap_congr_mem
    intro p _
    cases p with
    | tok t =>
      by_cases ht : t = n
      · subst ht
        have h1 : expandPiece t r (Piece.tok t) = r := by simp [expandPiece]
        rw [h1]
        have h2 : r.flatMap (onePassExpand L) = onePassSub L r := rfl
        rw [h2, onePassSub_id L r]
        · have h3 : assoc? t ((t, r) :: L) = some r := by simp [assoc?]
          simp [onePassExpand, h3]
        · intro u hu
          cases ha : assoc? u L with
          | none => rfl
          | some v =>
            exfalso
            have hm := assoc?_mem ha
            exact hint (u, v) (by simp [hm]) (t, r) (by simp) hu
      · have h1 : expandPiece n r (Piece.tok t) = [Piece.tok t] := by simp [expandPiece, ht]
        rw [h1]
        have h3 : assoc? t ((n, r) :: L) = assoc? t L := by
          simp [assoc?, ht]
          intro he; exact absurd he.symm ht
        simp only [List.flatMap_cons, List.flatMap_nil, List.append_nil]
        simp [onePassExpand, h3]
    | chr c =>
      simp only [expandPiece, List.flatMap_cons, List.flatMap_nil, List.append_nil]
      simp [onePassExpand]

theorem memb_iff_mem (x : List Char) (l : List (List Char)) :
    memb x l = true ↔ x ∈ l := by
  induction l with
  | nil => simp [memb]
  | cons y ys ih =>
    by_cases h : y = x
    · subst h; simp [memb]
    · simp only [memb, if_neg h, ih, List.mem_cons]
      constructor
      · exact Or.inr
      · rintro (he | hm)
        · exact absurd he.symm h
        · exact hm

theorem assoc?_map_values {α β : Type} (k : List Char) (g : α → β) :
    ∀ l : List (List Char × α),
      assoc? k (l.map (fun p => (p.1, g p.2))) = (assoc? k l).map g := by
  intro l
  induction l with
  | nil => rfl
  | cons kv l ih =>
    obtain ⟨k', v⟩ := kv
    by_cases h : k' = k
    · subst h; simp [assoc?]
    · simp [assoc?, h, ih]

theorem assoc?_filter_key {α : Type} (k : List Char) (f : List Char → Bool)
    (hk : f k = true) :
    ∀ l : List (List Char × α), assoc? k (l.filter (fun p => f p.1)) = assoc? k l := by
  intro l
  induction l with
  | nil => rfl
  | cons kv l ih =>
    obtain ⟨k', v⟩ := kv
    by_cases h : k' = k
    · subst h; simp [List.filter_cons, hk, assoc?]
    · by_cases hf : f k' = true
      · simp [List.filter_cons, hf, assoc?, h, ih]
      · simp [List.filter_cons, hf, assoc?, h, ih]

theorem mem_toksP {t : List Char} {ps : List Piece} (h : Piece.tok t ∈ ps) :
    t ∈ toksP ps := by
  unfold toksP
  rw [List.mem_filterMap]
  exact ⟨Piece.tok t, h, rfl⟩

/-- The whole rewriting loop, carried out on the piece decomposition. -/
theorem rewriteFold_eq_flattenP (M : List (List Char × List Char)) :
    ∀ s : List Char,
      M.foldl (fun s p => subWord p.1 (quotedPath p.2) s) s =
      flattenP ((M.map (fun p => (p.1, pieces (quotedPath p.2)))).foldl
        (fun ps pr => pieceSub pr.1 pr.2 ps) (pieces s)) := by
  induction M with
  | nil =>
    intro s
    simp only [List.foldl_nil, List.map_nil]
    exact (flattenP_pieces s).symm
  | cons nf M ih =>
    intro s
    obtain ⟨n, f⟩ := nf
    simp only [List.foldl_cons, List.map_cons]
    rw [ih (subWord n (quotedPath f) s)]
    congr 2
    rw [subWord_eq_flattenP]
    apply pieces_flattenP
    have hq : ValidP (pieces (quotedPath f)) := validP_pieces _
    exact validP_pieceSub n _ _ hq.1 hq.2
      (pieces_ne_nil (by simp [quotedPath])) (validP_pieces s)

theorem assoc?_matchedEntries (cat : List (List Char × List Char)) (sql t : List Char)
    (ht : memb t (wordTokens sql) = true) :
    assoc? t (matchedEntries cat sql) = assoc? t cat := by
  unfold matchedEntries
  induction cat with
  | nil => rfl
  | cons kv l ih =>
    obtain ⟨k, v⟩ := kv
    by_cases hk : k = t
    · subst hk
      simp [List.filter_cons, ht, assoc?]
    · by_cases hf : memb k (wordTokens sql) = true
      · simp [List.filter_cons, hf, assoc?, hk, ih]
      · simp [List.filter_cons, hf, assoc?, hk, ih]

/-- Decidable formulation of the non-interference hypothesis: no catalog name
occurs as a whole-word token of any entry's quoted substituted path. -/
def noInterference (cat : List (List Char × List Char)) : Bool :=
  cat.all (fun p => cat.all (fun q => !(memb p.1 (wordTokens (quotedPath q.2)))))

theorem noInterference_spec {cat : List (List Char × List Char)}
    (h : noInterference cat = true) :
    ∀ p ∈ cat, ∀ q ∈ cat, p.1 ∉ wordTokens (quotedPath q.2) := by
  intro p hp q hq
  unfold noInterference at h
  rw [List.all_eq_true] at h
  have h1 := h p hp
  rw [List.all_eq_true] at h1
  have h2 := h1 q hq
  simp only [Bool.not_eq_true'] at h2
  intro hmem
  rw [← memb_iff_mem] at hmem
  rw [hmem] at h2
  cases h2

/-- Concrete catalog for the C1 counterexample: two tables whose names also
occur as path tokens. -/
def c1CexCat : List (List Char × List Char) :=
  [(("tables").toList, ("tables/0.csv").toList),
   (("csv").toList, ("tables/1.csv").toList)]

/-- Concrete SQL for the C1 counterexample. -/
def c1CexSql : List Char := ("SELECT * FROM tables, csv").toList

/-- Claim C1, as stated, is false: with catalog entries `tables ↦ tables/0.csv`
and `csv ↦ tables/1.csv` and the query `SELECT * FROM tables, csv`, the
multi-pass rewriter substitutes the token `csv` a second time inside the
path just inserted for `tables` (this happens in either iteration order),
so the result is not the claimed token-wise substitution. -/
theorem c1_counterexample :
    rewriteSql c1CexCat c1CexSql ≠ specRewrite c1CexCat c1CexSql := by decide

/-- Claim C1 (amended): provided no catalog table name occurs as a whole-word
token of any entry's quoted substituted file path, the rewriter replaces
each whole-word occurrence of each catalog table name that appears as a
whole token in the SQL with that entry's file path resolved under the
managed storage root, in forward-slash form and wrapped in single quotes,
and leaves every other character — in particular names occurring only as
substrings of longer word-character identifiers — unchanged (that is, it
agrees with the single-pass substitution `specRewrite`). -/
theorem c1_rewrite_is_single_pass (cat : List (List Char × List Char))
    (sql : List Char) (h : noInterference cat = true) :
    rewriteSql cat sql = specRewrite cat sql := by
  have hni := noInterference_spec h
  unfold rewriteSql
  rw [rewriteFold_eq_flattenP]
  rw [foldl_pieceSub_eq_onePassSub _ ?hint (pieces sql)]
  case hint =>
    intro pr hpr qr hqr
    rcases List.mem_map.1 hpr with ⟨p0, hp0, hpe⟩
    rcases List.mem_map.1 hqr with ⟨q0, hq0, hqe⟩
    subst hpe; subst hqe
    have hp0' : p0 ∈ cat := List.mem_of_mem_filter hp0
    have hq0' : q0 ∈ cat := List.mem_of_mem_filter hq0
    show p0.1 ∉ toksP (pieces (quotedPath q0.2))
    rw [← wordTokens_eq_toksP]
    exact hni p0 hp0' q0 hq0'
  · unfold onePassSub specRewrite flattenP
    rw [List.flatMap_assoc]
    apply flatMap_congr_mem
    intro p hp
    cases p with
    | chr c => simp [onePassExpand, Piece.flat]
    | tok t =>
      have htin : t ∈ wordTokens sql := by
        rw [wordTokens_eq_toksP]; exact mem_toksP hp
      have htm : memb t (wordTokens sql) = true := (memb_iff_mem ..).2 htin
      have hL : assoc? t ((matchedEntries cat sql).map
          (fun p => (p.1, pieces (quotedPath p.2)))) =
          (assoc? t cat).map (fun f => pieces (quotedPath f)) := by
        have h1 := assoc?_map_values t (fun f => pieces (quotedPath f))
          (matchedEntries cat sql)
        rw [assoc?_matchedEntries cat sql t htm] at h1
        exact h1
      cases hc : assoc? t cat with
      | none =>
        simp [onePassExpand, hL, hc, Piece.flat]
      | some f =>
        simp only [onePassExpand, hL, hc, Option.map_some']
        exact flattenP_pieces (quotedPath f)

/-- Concrete catalog for the C1 witness: a single table `sales`. -/
def c1WitCat : List (List Char × List Char) :=
  [(("sales").toList, ("tables/0.csv").toList)]

/-- Concrete SQL for the C1 witness. -/
def c1WitSql : List Char := ("SELECT * FROM sales").toList

/-- Witness for `c1_rewrite_is_single_pass` at a concrete input, also checking
the spec's concrete example: `sales` is replaced by the quoted resolved
path. -/
theorem c1_rewrite_is_single_pass_witness :
    noInterference c1WitCat = true ∧
    rewriteSql c1WitCat c1WitSql = specRewrite c1WitCat c1WitSql ∧
    rewriteSql c1WitCat c1WitSql =
      ("SELECT * FROM ").toList ++ quotedPath (("tables/0.csv").toList) :=
  ⟨by decide, c1_rewrite_is_single_pass c1WitCat c1WitSql (by decide), by decide⟩

/-- Concrete catalog for the C2 counterexample: it contains `sales`, does not
contain `sales_region`, but also contains a table named `FROM`. -/
def c2CexCat : List (List Char × List Char) :=
  [(("sales").toList, ("tables/0.csv").toList),
   (("FROM").toList, ("tables/1.csv").toList)]

/-- Concrete SQL for the C2 counterexample. -/
def c2CexSql : List Char := ("SELECT * FROM sales_region").toList

/-- Claim C2, as stated, is false: a catalog containing `sales` (and not
`sales_region`) may contain further names — here `FROM` — that do occur as
whole tokens of `SELECT * FROM sales_region`, and then the string is not
returned unchanged. -/
theorem c2_counterexample : rewriteSql c2CexCat c2CexSql ≠ c2CexSql := by decide

/-- Decidable hypothesis for C2: no catalog name occurs as a whole-word token
of the SQL string. -/
def noTokenMatch (cat : List (List Char × List Char)) (sql : List Char) : Bool :=
  cat.all (fun p => !(memb p.1 (wordTokens sql)))

/-- Claim C2 (amended): for every catalog none of whose names occurs as a
whole-word token of the SQL string — e.g. a catalog whose only name is
`sales` against `SELECT * FROM sales_region`, where `sales` occurs only as
a substring of the longer identifier `sales_region` — the rewriter returns
the SQL string unchanged. -/
theorem c2_no_token_match_unchanged (cat : List (List Char × List Char))
    (sql : List Char) (h : noTokenMatch cat sql = true) :
    rewriteSql cat sql = sql := by
  unfold rewriteSql
  have hm : matchedEntries cat sql = [] := by
    unfold matchedEntries
    rw [List.filter_eq_nil_iff]
    intro p hp
    unfold noTokenMatch at h
    rw [List.all_eq_true] at h
    have := h p hp
    simp only [Bool.not_eq_true'] at this
    simp [this]
  rw [hm]
  rfl

/-- Concrete catalog for the C2 witness: only the name `sales`. -/
def c2WitCat : List (List Char × List Char) :=
  [(("sales").toList, ("tables/0.csv").toList)]

/-- Witness for `c2_no_token_match_unchanged`: `SELECT * FROM sales_region` is
returned unchanged when the catalog's only name is `sales`. -/
theorem c2_no_token_match_unchanged_witness :
    noTokenMatch c2WitCat (("SELECT * FROM sales_region").toList) = true ∧
    rewriteSql c2WitCat (("SELECT * FROM sales_region").toList) =
      ("SELECT * FROM sales_region").toList :=
  ⟨by decide, c2_no_token_match_unchanged c2WitCat _ (by decide)⟩

/-! ### The catalog document: JSON values, `json.dumps(…, indent=2)` and
`json.loads` (used by `save_catalog` / `load_catalog`, datalake.py
lines 21-25) -/

/-- JSON values as Python's `json` module produces them, restricted to the
shapes this program can store or read back: objects, arrays, strings,
integers, booleans and null (floating-point literals are outside the
modelled catalog domain; `loads` rejects them below). -/
inductive Json where
  | null
  | bool (b : Bool)
  | int (n : Int)
  | str (s : List Char)
  | arr (xs : List Json)
  | obj (kvs : List (List Char × Json))

/-- Python dict assignment `d[k] = v`: replace in place when the key exists
(keeping its position), append otherwise. -/
def dictInsert {α : Type} (kvs : List (List Char × α)) (k : List Char) (v : α) :
    List (List Char × α) :=
  match kvs with
  | [] => [(k, v)]
  | (k', v') :: rest => if k' = k then (k', v) :: rest else (k', v') :: dictInsert rest k v

/-- Decimal digit characters. -/
def digitChar (d : Nat) : Char :=
  match d with
  | 0 => '0' | 1 => '1' | 2 => '2' | 3 => '3' | 4 => '4'
  | 5 => '5' | 6 => '6' | 7 => '7' | 8 => '8' | _ => '9'

/-- Lowercase hexadecimal digit characters (as Python's `\u` escapes use). -/
def hexChar (d : Nat) : Char :=
  match d with
  | 0 => '0' | 1 => '1' | 2 => '2' | 3 => '3' | 4 => '4'
  | 5 => '5' | 6 => '6' | 7 => '7' | 8 => '8' | 9 => '9'
  | 10 => 'a' | 11 => 'b' | 12 => 'c' | 13 => 'd' | 14 => 'e' | _ => 'f'

/-- Digit emitter for `natChars`; the fuel only bounds the recursion and is
always sufficient at the call site. -/
def natCharsAux : Nat → Nat → List Char → List Char
  | 0, _, acc => acc
  | fuel + 1, n, acc =>
    if n < 10 then digitChar n :: acc
    else natCharsAux fuel (n / 10) (digitChar (n % 10) :: acc)

/-- Decimal representation of a natural number, as Python prints it. -/
def natChars (n : Nat) : List Char := natCharsAux (n + 1) n []

/-- Decimal representation of an integer, as Python prints it. -/
def intChars (i : Int) : List Char :=
  if i < 0 then '-' :: natChars i.natAbs else natChars i.toNat

/-- Four lowercase hex digits. -/
def hex4 (n : Nat) : List Char :=
  [hexChar (n / 4096 % 16), hexChar (n / 256 % 16), hexChar (n / 16 % 16), hexChar (n % 16)]

/-- The tab character (9). -/
def tabChar : Char := Char.ofNat 9

/-- The carriage-return character (13). -/
def crChar : Char := Char.ofNat 13

/-- The backspace character (8). -/
def bsChar : Char := Char.ofNat 8

/-- The form-feed character (12). -/
def ffChar : Char := Char.ofNat 12

/-- Python's `json` string escaping with the default `ensure_ascii=True`:
quote, backslash and the named control characters get two-character
escapes, every other character outside the printable ASCII range gets a
`\u` escape (a surrogate pair above the basic multilingual plane). -/
def escapeChar (c : Char) : List Char :=
  if c = dquote then [bslash, dquote]
  else if c = bslash then [bslash, bslash]
  else if c = nlChar then [bslash, 'n']
  else if c = tabChar then [bslash, 't']
  else if c = crChar then [bslash, 'r']
  else if c = bsChar then [bslash, 'b']
  else if c = ffChar then [bslash, 'f']
  else if c.toNat < 32 || c.toNat > 126 then
    if c.toNat ≤ 65535 then bslash :: 'u' :: hex4 c.toNat
    else
      bslash :: 'u' :: hex4 (55296 + (c.toNat - 65536) / 1024) ++
        bslash :: 'u' :: hex4 (56320 + (c.toNat - 65536) % 1024)
  else [c]

/-- JSON string escaping applied to a whole string. -/
def escapeStr (s : List Char) : List Char := s.flatMap escapeChar

/-- Two-space indentation at nesting depth `d` (`indent=2`). -/
def spacesN (n : Nat) : List Char := List.replicate n ' '

mutual
/-- `json.dumps(value, indent=2)` at nesting depth `d`: Python's formatting
with two-space indentation, `": "` between key and value and `",\n"` plus
indentation between items. -/
def dumpVal : Nat → Json → List Char
  | _, .null => ("null").toList
  | _, .bool true => ("true").toList
  | _, .bool false => ("false").toList
  | _, .int n => intChars n
  | _, .str s => dquote :: escapeStr s ++ [dquote]
  | _, .arr [] => [lsquare, rsquare]
  | d, .arr (x :: xs) =>
      lsquare :: nlChar :: spacesN (2 * (d + 1)) ++ dumpItems (d + 1) (x :: xs) ++
        nlChar :: spacesN (2 * d) ++ [rsquare]
  | _, .obj [] => [lcurly, rcurly]
  | d, .obj (kv :: kvs) =>
      lcurly :: nlChar :: spacesN (2 * (d + 1)) ++ dumpMembers (d + 1) (kv :: kvs) ++
        nlChar :: spacesN (2 * d) ++ [rcurly]

/-- The items of a non-empty array, separated by `",\n"` and indentation. -/
def dumpItems : Nat → List Json → List Char
  | _, [] => []
  | d, [x] => dumpVal d x
  | d, x :: y :: xs =>
      dumpVal d x ++ ',' :: nlChar :: spacesN (2 * d) ++ dumpItems d (y :: xs)

/-- The members of a non-empty object, separated by `",\n"` and indentation. -/
def dumpMembers : Nat → List (List Char × Json) → List Char
  | _, [] => []
  | d, [(k, v)] => dquote :: escapeStr k ++ dquote :: ':' :: ' ' :: dumpVal d v
  | d, (k, v) :: m :: kvs =>
      dquote :: escapeStr k ++ dquote :: ':' :: ' ' :: dumpVal d v ++
        ',' :: nlChar :: spacesN (2 * d) ++ dumpMembers d (m :: kvs)
end

/-- Model of `json.dumps(catalog, indent=2)` as `save_catalog` calls it
(datalake.py line 25). -/
def dumps (j : Json) : List Char := dumpVal 0 j

/-- JSON whitespace accepted between tokens by `json.loads`. -/
def isJsonWs (c : Char) : Bool :=
  c = ' ' || c = tabChar || c = nlChar || c = crChar

/-- Skip JSON whitespace. -/
def skipWs (s : List Char) : List Char := s.dropWhile isJsonWs

/-- Numeric value of a decimal digit character. -/
def digitVal (c : Char) : Option Nat :=
  if '0' ≤ c && c ≤ '9' then some (c.toNat - 48) else none

/-- Numeric value of a hexadecimal digit character. -/
def hexVal (c : Char) : Option Nat :=
  if '0' ≤ c && c ≤ '9' then some (c.toNat - 48)
  else if 'a' ≤ c && c ≤ 'f' then some (c.toNat - 87)
  else if 'A' ≤ c && c ≤ 'F' then some (c.toNat - 55)
  else none

/-- Consume a run of decimal digits, folding up their value. -/
def pDigits : List Char → Nat → Nat × List Char
  | [], acc => (acc, [])
  | c :: cs, acc =>
    match digitVal c with
    | some d => pDigits cs (acc * 10 + d)
    | none => (acc, c :: cs)

/-- After an integer literal, `json.loads` would continue into a
floating-point literal on `.`, `e` or `E`; floats are outside the modelled
catalog domain, so the parser rejects them rather than return a wrong
value. -/
def noFloatHead (s : List Char) : Bool :=
  match s with
  | c :: _ => !(c = '.' || c = 'e' || c = 'E')
  | [] => true

/-- Parse a non-negative JSON integer literal (`0` or a nonzero digit
followed by digits; a leading `0` ends the literal, as in JSON's number
grammar). -/
def pNat (s : List Char) : Option (Nat × List Char) :=
  match s with
  | c :: cs =>
    match digitVal c with
    | some 0 => if noFloatHead cs then some (0, cs) else none
    | some d =>
      match pDigits cs d with
      | (v, r) => if noFloatHead r then some (v, r) else none
    | none => none
  | [] => none

/-- Parse the body of a JSON string literal (after the opening quote),
decoding escapes.  A `\u` escape becomes the character of its code point
(surrogate pairs, which Python recombines, are outside the modelled
domain). -/
def pStrBody : List Char → Option (List Char × List Char)
  | [] => none
  | c :: rest =>
    if c = dquote then some ([], rest)
    else if c = bslash then
      match rest with
      | [] => none
      | e :: rest2 =>
        if e = dquote then (pStrBody rest2).map (fun p => (dquote :: p.1, p.2))
        else if e = bslash then (pStrBody rest2).map (fun p => (bslash :: p.1, p.2))
        else if e = '/' then (pStrBody rest2).map (fun p => ('/' :: p.1, p.2))
        else if e = 'n' then (pStrBody rest2).map (fun p => (nlChar :: p.1, p.2))
        else if e = 't' then (pStrBody rest2).map (fun p => (tabChar :: p.1, p.2))
        else if e = 'r' then (pStrBody rest2).map (fun p => (crChar :: p.1, p.2))
        else if e = 'b' then (pStrBody rest2).map (fun p => (bsChar :: p.1, p.2))
        else if e = 'f' then (pStrBody rest2).map (fun p => (ffChar :: p.1, p.2))
        else if e = 'u' then
          match rest2 with
          | h1 :: h2 :: h3 :: h4 :: rest3 =>
            match hexVal h1, hexVal h2, hexVal h3, hexVal h4 with
            | some a, some b, some c3, some d4 =>
              (pStrBody rest3).map
                (fun p => (Char.ofNat (a * 4096 + b * 256 + c3 * 16 + d4) :: p.1, p.2))
            | _, _, _, _ => none
          | _ => none
        else none
    else if c.toNat < 32 then none
    else (pStrBody rest).map (fun p => (c :: p.1, p.2))

mutual
/-- Fuel-indexed recursive-descent parser for JSON values, modelling
`json.loads`'s grammar (minus floats).  The fuel only bounds recursion
depth; `loads` below supplies enough for any input. -/
def pVal : Nat → List Char → Option (Json × List Char)
  | 0, _ => none
  | fuel + 1, s =>
    match skipWs s with
    | [] => none
    | c :: r =>
      if c = lcurly then
        match skipWs r with
        | [] => none
        | c2 :: r2 =>
          if c2 = rcurly then some (.obj [], r2)
          else pMembers fuel (c2 :: r2) []
      else if c = lsquare then
        match skipWs r with
        | [] => none
        | c2 :: r2 =>
          if c2 = rsquare then some (.arr [], r2)
          else pItems fuel (c2 :: r2) []
      else if c = dquote then
        (pStrBody r).map (fun p => (.str p.1, p.2))
      else if c = 'n' then
        match r with
        | 'u' :: 'l' :: 'l' :: r2 => some (.null, r2)
        | _ => none
      else if c = 't' then
        match r with
        | 'r' :: 'u' :: 'e' :: r2 => some (.bool true, r2)
        | _ => none
      else if c = 'f' then
        match r with
        | 'a' :: 'l' :: 's' :: 'e' :: r2 => some (.bool false, r2)
        | _ => none
      else if c = '-' then
        (pNat r).map (fun p => (.int (-(p.1 : Int)), p.2))
      else
        (pNat (c :: r)).map (fun p => (.int (p.1 : Int), p.2))

/-- Parse the members of an object, positioned at a key's opening quote.
Duplicate keys follow Python: the later value wins, the first position is
kept (`dictInsert`). -/
def pMembers : Nat → List Char → List (List Char × Json) →
    Option (Json × List Char)
  | 0, _, _ => none
  | fuel + 1, s, acc =>
    match s with
    | [] => none
    | c :: r =>
      if c = dquote then
        match pStrBody r with
        | none => none
        | some (k, r2) =>
          match skipWs r2 with
          | ':' :: r3 =>
            match pVal fuel r3 with
            | none => none
            | some (v, r4) =>
              match skipWs r4 with
              | [] => none
              | c5 :: r5 =>
                if c5 = ',' then pMembers fuel (skipWs r5) (dictInsert acc k v)
                else if c5 = rcurly then some (.obj (dictInsert acc k v), r5)
                else none
          | _ => none
      else none

/-- Parse the items of an array, positioned at the first character of an
item. -/
def pItems : Nat → List Char → List Json → Option (Json × List Char)
  | 0, _, _ => none
  | fuel + 1, s, acc =>
    match pVal fuel s with
    | none => none
    | some (v, r) =>
      match skipWs r with
      | [] => none
      | c :: r2 =>
        if c = ',' then pItems fuel (skipWs r2) (acc ++ [v])
        else if c = rsquare then some (.arr (acc ++ [v]), r2)
        else none
end

/-- Model of `json.loads` as `load_catalog` calls it (datalake.py line 22):
parse one value, require only whitespace after it. -/
def loads (s : List Char) : Option Json :=
  match pVal (s.length + 1) s with
  | some (j, rest) => if skipWs rest = [] then some j else none
  | none => none

/-! ### Round-trip of `dumps` and `loads` on catalog documents -/

/-- Characters serialized without escaping: printable ASCII minus the quote
and the backslash. -/
def plainChar (c : Char) : Bool :=
  32 ≤ c.toNat && c.toNat ≤ 126 && !(c = dquote) && !(c = bslash)

mutual
/-- The modelled catalog-document domain: finitely nested objects of plain
strings, integers, booleans and nulls with distinct keys — the shapes
`save_catalog` ever writes (catalog documents contain no arrays, no
floats, and addTable only inserts fresh keys). -/
def plainJson : Json → Bool
  | .null => true
  | .bool _ => true
  | .int _ => true
  | .str s => s.all plainChar
  | .arr _ => false
  | .obj kvs => plainMembers kvs

/-- Members of a plain object: plain distinct keys, plain values. -/
def plainMembers : List (List Char × Json) → Bool
  | [] => true
  | (k, v) :: rest =>
    k.all plainChar && !(hasKey rest k) && plainJson v && plainMembers rest
end

theorem skipWs_cons_not_ws {c : Char} (h : isJsonWs c = false) (s : List Char) :
    skipWs (c :: s) = c :: s := by
  simp [skipWs, List.dropWhile_cons, h]

theorem skipWs_cons_ws {c : Char} (h : isJsonWs c = true) (s : List Char) :
    skipWs (c :: s) = skipWs s := by
  simp [skipWs, List.dropWhile_cons, h]

theorem skipWs_spacesN (n : Nat) (s : List Char) :
    skipWs (spacesN n ++ s) = skipWs s := by
  induction n with
  | zero => simp [spacesN]
  | succ n ih =>
    have : spacesN (n + 1) = ' ' :: spacesN n := by simp [spacesN, List.replicate]
    rw [this, List.cons_append, skipWs_cons_ws (by decide)]
    exact ih

theorem skipWs_idem (s : List Char) : skipWs (skipWs s) = skipWs s := by
  induction s with
  | nil => rfl
  | cons c cs ih =>
    by_cases h : isJsonWs c = true
    · rw [skipWs_cons_ws h, ih]
    · rw [skipWs_cons_not_ws (by simpa using h), skipWs_cons_not_ws (by simpa using h)]

theorem pVal_skipWs (fuel : Nat) (s : List Char) :
    pVal (fuel + 1) s = pVal (fuel + 1) (skipWs s) := by
  show (match skipWs s with
    | [] => none
    | c :: r =>
      if c = lcurly then
        match skipWs r with
        | [] => none
        | c2 :: r2 =>
          if c2 = rcurly then some (.obj [], r2)
          else pMembers fuel (c2 :: r2) []
      else if c = lsquare then
        match skipWs r with
        | [] => none
        | c2 :: r2 =>
          if c2 = rsquare then some (.arr [], r2)
          else pItems fuel (c2 :: r2) []
      else if c = dquote then
        (pStrBody r).map (fun p => (Json.str p.1, p.2))
      else if c = 'n' then
        match r with
        | 'u' :: 'l' :: 'l' :: r2 => some (.null, r2)
        | _ => none
      else if c = 't' then
        match r with
        | 'r' :: 'u' :: 'e' :: r2 => some (.bool true, r2)
        | _ => none
      else if c = 'f' then
        match r with
        | 'a' :: 'l' :: 's' :: 'e' :: r2 => some (.bool false, r2)
        | _ => none
      else if c = '-' then
        (pNat r).map (fun p => (Json.int (-(p.1 : Int)), p.2))
      else
        (pNat (c :: r)).map (fun p => (Json.int (p.1 : Int), p.2))) =
    pVal (fuel + 1) (skipWs s)
  conv_rhs => rw [show pVal (fuel + 1) (skipWs s) = (match skipWs (skipWs s) with
    | [] => none
    | c :: r =>
      if c = lcurly then
        match skipWs r with
        | [] => none
        | c2 :: r2 =>
          if c2 = rcurly then some (.obj [], r2)
          else pMembers fuel (c2 :: r2) []
      else if c = lsquare then
        match skipWs r with
        | [] => none
        | c2 :: r2 =>
          if c2 = rsquare then some (.arr [], r2)
          else pItems fuel (c2 :: r2) []
      else if c = dquote then
        (pStrBody r).map (fun p => (Json.str p.1, p.2))
      else if c = 'n' then
        match r with
        | 'u' :: 'l' :: 'l' :: r2 => some (.null, r2)
        | _ => none
      else if c = 't' then
        match r with
        | 'r' :: 'u' :: 'e' :: r2 => some (.bool true, r2)
        | _ => none
      else if c = 'f' then
        match r with
        | 'a' :: 'l' :: 's' :: 'e' :: r2 => some (.bool false, r2)
        | _ => none
      else if c = '-' then
        (pNat r).map (fun p => (Json.int (-(p.1 : Int)), p.2))
      else
        (pNat (c :: r)).map (fun p => (Json.int (p.1 : Int), p.2))) from rfl]
  rw [skipWs_idem]

theorem plainChar_facts {c : Char} (h : plainChar c = true) :
    32 ≤ c.toNat ∧ c.toNat ≤ 126 ∧ c ≠ dquote ∧ c ≠ bslash := by
  unfold plainChar at h
  simp only [Bool.and_eq_true, Bool.not_eq_true', decide_eq_true_eq,
    decide_eq_false_iff_not] at h
  exact ⟨h.1.1.1, h.1.1.2, h.1.2, h.2⟩

theorem escapeChar_plain {c : Char} (h : plainChar c = true) : escapeChar c = [c] := by
  obtain ⟨h1, h2, h3, h4⟩ := plainChar_facts h
  unfold escapeChar
  rw [if_neg h3, if_neg h4]
  rw [if_neg (fun he => by subst he; exact absurd h1 (by decide))]
  rw [if_neg (fun he => by subst he; exact absurd h1 (by decide))]
  rw [if_neg (fun he => by subst he; exact absurd h1 (by decide))]
  rw [if_neg (fun he => by subst he; exact absurd h1 (by decide))]
  rw [if_neg (fun he => by subst he; exact absurd h1 (by decide))]
  rw [if_neg (by simp; omega)]

theorem escapeStr_plain {s : List Char} (h : s.all plainChar = true) :
    escapeStr s = s := by
  induction s with
  | nil => rfl
  | cons c cs ih =>
    simp only [List.all_cons, Bool.and_eq_true] at h
    simp only [escapeStr, List.flatMap_cons, escapeChar_plain h.1]
    have := ih h.2
    simp only [escapeStr] at this
    rw [this]
    rfl

theorem pStrBody_plain {s : List Char} (h : s.all plainChar = true)
    (rest : List Char) : pStrBody (s ++ dquote :: rest) = some (s, rest) := by
  induction s with
  | nil =>
    show pStrBody (dquote :: rest) = some ([], rest)
    unfold pStrBody
    rw [if_pos rfl]
  | cons c cs ih =>
    simp only [List.all_cons, Bool.and_eq_true] at h
    obtain ⟨h1, h2, h3, h4⟩ := plainChar_facts h.1
    show pStrBody (c :: (cs ++ dquote :: rest)) = some (c :: cs, rest)
    unfold pStrBody
    rw [if_neg h3, if_neg h4, if_neg (by omega)]
    rw [ih h.2]
    rfl

/-- The characters after a printed value in a printed document never extend a
numeric literal: they are not digits and not `.`/`e`/`E`. -/
def restSafe (s : List Char) : Bool :=
  match s with
  | [] => true
  | c :: _ => !(digitVal c).isSome && !(c = '.' || c = 'e' || c = 'E')

theorem digitVal_digitChar {d : Nat} (h : d < 10) : digitVal (digitChar d) = some d := by
  interval_cases d <;> decide

theorem digitVal_eq {c : Char} {d : Nat} (h : digitVal c = some d) :
    d = c.toNat - 48 := by
  unfold digitVal at h
  by_cases hc : ('0' ≤ c && c ≤ '9') = true
  · rw [if_pos hc] at h; exact (Option.some_inj.1 h).symm
  · rw [if_neg hc] at h; cases h

theorem foldDigitsF_eq : ∀ (a : Nat) (c : Char) (d : Nat), digitVal c = some d →
    a * 10 + (c.toNat - 48) = a * 10 + d := by
  intro a c d h
  rw [digitVal_eq h]

/-- Consuming a digit run then a non-digit continuation. -/
theorem pDigits_run : ∀ (ds : List Char), (∀ c ∈ ds, (digitVal c).isSome = true) →
    ∀ (rest : List Char), (∀ c, rest.head? = some c → digitVal c = none) →
    ∀ a, pDigits (ds ++ rest) a =
      (ds.foldl (fun x c => x * 10 + (c.toNat - 48)) a, rest) := by
  intro ds
  induction ds with
  | nil =>
    intro _ rest hr a
    cases rest with
    | nil => rfl
    | cons c cs =>
      show pDigits (c :: cs) a = (a, c :: cs)
      unfold pDigits
      rw [hr c rfl]
  | cons c ds ih =>
    intro hds rest hr a
    have hc : (digitVal c).isSome = true := hds c (by simp)
    obtain ⟨d, hd⟩ := Option.isSome_iff_exists.1 hc
    show pDigits (c :: (ds ++ rest)) a = _
    unfold pDigits
    rw [hd]
    show pDigits (ds ++ rest) (a * 10 + d) =
      (List.foldl (fun x c => x * 10 + (c.toNat - 48)) a (c :: ds), rest)
    rw [ih (fun x hx => hds x (by simp [hx])) rest hr (a * 10 + d)]
    simp only [List.foldl_cons]
    rw [digitVal_eq hd]

theorem natCharsAux_acc : ∀ (fuel n : Nat) (acc : List Char),
    natCharsAux fuel n acc = natCharsAux fuel n [] ++ acc := by
  intro fuel
  induction fuel with
  | zero => intro n acc; rfl
  | succ fuel ih =>
    intro n acc
    by_cases h : n < 10
    · simp [natCharsAux, h]
    · show natCharsAux (fuel + 1) n acc = natCharsAux (fuel + 1) n [] ++ acc
      unfold natCharsAux
      rw [if_neg h, if_neg h]
      rw [ih (n / 10) (digitChar (n % 10) :: acc), ih (n / 10) [digitChar (n % 10)]]
      simp

theorem natCharsAux_spec : ∀ (fuel n : Nat), n < 10 ^ (fuel + 1) →
    (natCharsAux (fuel + 1) n [] ≠ [] ∧
     (∀ c ∈ natCharsAux (fuel + 1) n [], (digitVal c).isSome = true) ∧
     (∀ a, (natCharsAux (fuel + 1) n []).foldl (fun x c => x * 10 + (c.toNat - 48)) a =
        a * 10 ^ (natCharsAux (fuel + 1) n []).length + n) ∧
     (0 < n → ∃ c0 cs, natCharsAux (fuel + 1) n [] = c0 :: cs ∧
        ∃ d0, digitVal c0 = some d0 ∧ d0 ≠ 0)) := by
  intro fuel
  induction fuel with
  | zero =>
    intro n hn0
    have hn : n < 10 := by simpa using hn0
    have he : natCharsAux 1 n [] = [digitChar n] := by
      unfold natCharsAux
      rw [if_pos hn]
    refine ⟨by simp [he], ?_, ?_, ?_⟩
    · intro c hc
      rw [he] at hc
      simp at hc
      subst hc
      simp [digitVal_digitChar hn]
    · intro a
      rw [he]
      simp only [List.foldl_cons, List.foldl_nil, List.length_cons, List.length_nil]
      rw [← digitVal_eq (digitVal_digitChar hn)]
      norm_num
    · intro hpos
      exact ⟨digitChar n, [], he, n, digitVal_digitChar hn, by omega⟩
  | succ fuel ih =>
    intro n hn
    by_cases h : n < 10
    · have he : natCharsAux (fuel + 2) n [] = [digitChar n] := by
        unfold natCharsAux
        rw [if_pos h]
      refine ⟨by simp [he], ?_, ?_, ?_⟩
      · intro c hc
        rw [he] at hc
        simp at hc
        subst hc
        simp [digitVal_digitChar h]
      · intro a
        rw [he]
        simp only [List.foldl_cons, List.foldl_nil, List.length_cons, List.length_nil]
        rw [← digitVal_eq (digitVal_digitChar h)]
        norm_num
      · intro hpos
        exact ⟨digitChar n, [], he, n, digitVal_digitChar h, by omega⟩
    · have hdiv : n / 10 < 10 ^ (fuel + 1) := by
        rw [Nat.div_lt_iff_lt_mul (by omega)]
        calc n < 10 ^ (fuel + 1 + 1) := hn
        _ = 10 ^ (fuel + 1) * 10 := by ring
      obtain ⟨ne, digs, fold, hd⟩ := ih (n / 10) hdiv
      have he : natCharsAux (fuel + 2) n [] =
          natCharsAux (fuel + 1) (n / 10) [] ++ [digitChar (n % 10)] := by
        show natCharsAux (fuel + 1 + 1) n [] = _
        unfold natCharsAux
        rw [if_neg h]
        exact natCharsAux_acc (fuel + 1) (n / 10) [digitChar (n % 10)]
      have hm : n % 10 < 10 := Nat.mod_lt n (by omega)
      refine ⟨by simp [he], ?_, ?_, ?_⟩
      · intro c hc
        rw [he] at hc
        rcases List.mem_append.1 hc with hc | hc
        · exact digs c hc
        · simp at hc
          subst hc
          simp [digitVal_digitChar hm]
      · intro a
        rw [he, List.foldl_append, fold a]
        simp only [List.foldl_cons, List.foldl_nil, List.length_append,
          List.length_cons, List.length_nil]
        rw [← digitVal_eq (digitVal_digitChar hm)]
        have hsplit : ∀ t A : Nat,
            (A * t + n / 10) * 10 + n % 10 = A * (t * 10) + (10 * (n / 10) + n % 10) := by
          intro t A; ring
        rw [hsplit, Nat.div_add_mod]
        have hlen : ∀ L : Nat, (10:Nat) ^ (L + (0 + 1)) = 10 ^ L * 10 := by
          intro L
          rw [Nat.zero_add, pow_succ]
        rw [hlen]
      · intro _
        have hpos : 0 < n / 10 := Nat.div_pos (by omega) (by omega)
        obtain ⟨c0, cs, hcs, d0, hd0, hd0ne⟩ := hd hpos
        exact ⟨c0, cs ++ [digitChar (n % 10)], by rw [he, hcs]; rfl, d0, hd0, hd0ne⟩

theorem n_lt_pow_succ (n : Nat) : n < 10 ^ (n + 1) := by
  have h1 : n < 10 ^ n := Nat.lt_pow_self (by norm_num) n
  have h2 : (10 : Nat) ^ n ≤ 10 ^ (n + 1) := Nat.pow_le_pow_right (by norm_num) (by omega)
  omega

theorem restSafe_head {rest : List Char} (hr : restSafe rest = true) :
    (∀ c, rest.head? = some c → digitVal c = none) ∧ noFloatHead rest = true := by
  cases rest with
  | nil => exact ⟨fun c hc => absurd hc (by simp), rfl⟩
  | cons c cs =>
    unfold restSafe at hr
    simp only [Bool.and_eq_true, Bool.not_eq_true'] at hr
    constructor
    · intro c' hc'
      simp at hc'
      subst hc'
      exact Option.not_isSome_iff_eq_none.1 (by simp [hr.1])
    · show noFloatHead (c :: cs) = true
      unfold noFloatHead
      simp [hr.2]

/-- Parsing the printed decimal of `n` gives `n` back. -/
theorem pNat_natChars (n : Nat) (rest : List Char) (hr : restSafe rest = true) :
    pNat (natChars n ++ rest) = some (n, rest) := by
  obtain ⟨hdig, hnf⟩ := restSafe_head hr
  have hn : n < 10 ^ (n + 1) := n_lt_pow_succ n
  obtain ⟨ne, digs, fold, hd⟩ := natCharsAux_spec n n hn
  by_cases hpos : 0 < n
  · obtain ⟨c0, cs, hcs, d0, hd0, hd0ne⟩ := hd hpos
    have hnc : natChars n = c0 :: cs := hcs
    rw [hnc]
    show pNat (c0 :: (cs ++ rest)) = some (n, rest)
    show (match digitVal c0 with
      | some 0 => if noFloatHead (cs ++ rest) then some (0, cs ++ rest) else none
      | some d =>
        match pDigits (cs ++ rest) d with
        | (v, r) => if noFloatHead r then some (v, r) else none
      | none => none) = some (n, rest)
    rw [hd0]
    obtain ⟨k, hk⟩ := Nat.exists_eq_succ_of_ne_zero hd0ne
    subst hk
    show (match pDigits (cs ++ rest) (k + 1) with
      | (v, r) => if noFloatHead r then some (v, r) else none) = some (n, rest)
    rw [pDigits_run cs (fun c hc => digs c (by rw [hcs]; simp [hc])) rest hdig (k + 1)]
    simp only
    rw [if_pos hnf]
    have hfold := fold 0
    rw [hcs] at hfold
    simp only [List.foldl_cons, Nat.zero_mul, Nat.zero_add] at hfold
    have hk1 : k + 1 = c0.toNat - 48 := digitVal_eq hd0
    rw [hk1, hfold]
  · have hz : n = 0 := by omega
    subst hz
    have : natChars 0 = ['0'] := rfl
    rw [this]
    show pNat ('0' :: rest) = some (0, rest)
    show (match digitVal '0' with
      | some 0 => if noFloatHead rest then some (0, rest) else none
      | some d =>
        match pDigits rest d with
        | (v, r) => if noFloatHead r then some (v, r) else none
      | none => none) = some (0, rest)
    rw [show digitVal '0' = some 0 from rfl]
    rw [if_pos hnf]

theorem dictInsert_fresh {α : Type} (acc : List (List Char × α)) (k : List Char)
    (v : α) (h : hasKey acc k = false) : dictInsert acc k v = acc ++ [(k, v)] := by
  induction acc with
  | nil => rfl
  | cons kv acc ih =>
    obtain ⟨k', v'⟩ := kv
    unfold hasKey at h
    by_cases hk : k' = k
    · rw [if_pos hk] at h; cases h
    · rw [if_neg hk] at h
      show dictInsert ((k', v') :: acc) k v = (k', v') :: (acc ++ [(k, v)])
      unfold dictInsert
      rw [if_neg hk, ih h]

theorem hasKey_append {α : Type} (l1 l2 : List (List Char × α)) (x : List Char) :
    hasKey (l1 ++ l2) x = (hasKey l1 x || hasKey l2 x) := by
  induction l1 with
  | nil => rfl
  | cons kv l1 ih =>
    obtain ⟨k', v'⟩ := kv
    show hasKey ((k', v') :: (l1 ++ l2)) x =
      (hasKey ((k', v') :: l1) x || hasKey l2 x)
    by_cases hk : k' = x
    · show (if k' = x then true else hasKey (l1 ++ l2) x) =
        ((if k' = x then true else hasKey l1 x) || hasKey l2 x)
      rw [if_pos hk, if_pos hk]
      rfl
    · show (if k' = x then true else hasKey (l1 ++ l2) x) =
        ((if k' = x then true else hasKey l1 x) || hasKey l2 x)
      rw [if_neg hk, if_neg hk, ih]

theorem hasKey_false_forall {α : Type} {l : List (List Char × α)} {k : List Char}
    (h : hasKey l k = false) : ∀ p ∈ l, p.1 ≠ k := by
  induction l with
  | nil => intro p hp; cases hp
  | cons kv l ih =>
    obtain ⟨k', v'⟩ := kv
    unfold hasKey at h
    by_cases hk : k' = k
    · rw [if_pos hk] at h; cases h
    · rw [if_neg hk] at h
      intro p hp
      rcases List.mem_cons.1 hp with hp | hp
      · subst hp; exact hk
      · exact ih h p hp

theorem digit_not_special {c : Char} (h : (digitVal c).isSome = true) :
    isJsonWs c = false ∧ c ≠ lcurly ∧ c ≠ lsquare ∧ c ≠ dquote ∧
      c ≠ 'n' ∧ c ≠ 't' ∧ c ≠ 'f' ∧ c ≠ '-' := by
  refine ⟨?_, ?_, ?_, ?_, ?_, ?_, ?_, ?_⟩
  · by_contra hww
    rw [Bool.not_eq_false] at hww
    unfold isJsonWs at hww
    simp only [Bool.or_eq_true, decide_eq_true_eq] at hww
    rcases hww with ((h1 | h1) | h1) | h1 <;> (subst h1; exact absurd h (by decide))
  all_goals intro he
  all_goals subst he
  all_goals exact absurd h (by decide)

/-- Dispatch of the value parser on a decimal digit. -/
theorem pVal_digit (f : Nat) (c0 : Char) (X : List Char)
    (h : (digitVal c0).isSome = true) :
    pVal (f + 1) (c0 :: X) =
      (pNat (c0 :: X)).map (fun p => (Json.int (p.1 : Int), p.2)) := by
  obtain ⟨hw, h1, h2, h3, h4, h5, h6, h7⟩ := digit_not_special h
  show (match skipWs (c0 :: X) with
    | [] => none
    | c :: r =>
      if c = lcurly then
        match skipWs r with
        | [] => none
        | c2 :: r2 =>
          if c2 = rcurly then some (.obj [], r2)
          else pMembers f (c2 :: r2) []
      else if c = lsquare then
        match skipWs r with
        | [] => none
        | c2 :: r2 =>
          if c2 = rsquare then some (.arr [], r2)
          else pItems f (c2 :: r2) []
      else if c = dquote then
        (pStrBody r).map (fun p => (Json.str p.1, p.2))
      else if c = 'n' then
        match r with
        | 'u' :: 'l' :: 'l' :: r2 => some (.null, r2)
        | _ => none
      else if c = 't' then
        match r with
        | 'r' :: 'u' :: 'e' :: r2 => some (.bool true, r2)
        | _ => none
      else if c = 'f' then
        match r with
        | 'a' :: 'l' :: 's' :: 'e' :: r2 => some (.bool false, r2)
        | _ => none
      else if c = '-' then
        (pNat r).map (fun p => (Json.int (-(p.1 : Int)), p.2))
      else
        (pNat (c :: r)).map (fun p => (Json.int (p.1 : Int), p.2))) =
    (pNat (c0 :: X)).map (fun p => (Json.int (p.1 : Int), p.2))
  rw [skipWs_cons_not_ws hw]
  show (if c0 = lcurly then
        match skipWs X with
        | [] => none
        | c2 :: r2 =>
          if c2 = rcurly then some (.obj [], r2)
          else pMembers f (c2 :: r2) []
      else if c0 = lsquare then
        match skipWs X with
        | [] => none
        | c2 :: r2 =>
          if c2 = rsquare then some (.arr [], r2)
          else pItems f (c2 :: r2) []
      else if c0 = dquote then
        (pStrBody X).map (fun p => (Json.str p.1, p.2))
      else if c0 = 'n' then
        match X with
        | 'u' :: 'l' :: 'l' :: r2 => some (.null, r2)
        | _ => none
      else if c0 = 't' then
        match X with
        | 'r' :: 'u' :: 'e' :: r2 => some (.bool true, r2)
        | _ => none
      else if c0 = 'f' then
        match X with
        | 'a' :: 'l' :: 's' :: 'e' :: r2 => some (.bool false, r2)
        | _ => none
      else if c0 = '-' then
        (pNat X).map (fun p => (Json.int (-(p.1 : Int)), p.2))
      else
        (pNat (c0 :: X)).map (fun p => (Json.int (p.1 : Int), p.2))) =
    (pNat (c0 :: X)).map (fun p => (Json.int (p.1 : Int), p.2))
  rw [if_neg h1, if_neg h2, if_neg h3, if_neg h4, if_neg h5, if_neg h6, if_neg h7]

theorem skipWs_to_members (dm : Nat) (k : List Char) (v : Json)
    (kvs : List (List Char × Json)) (Z : List Char) :
    skipWs (dumpMembers dm ((k, v) :: kvs) ++ Z) =
      dumpMembers dm ((k, v) :: kvs) ++ Z := by
  obtain ⟨t, ht⟩ : ∃ t, dumpMembers dm ((k, v) :: kvs) = dquote :: t := by
    cases kvs <;> exact ⟨_, rfl⟩
  rw [ht]
  show skipWs (dquote :: (t ++ Z)) = dquote :: (t ++ Z)
  exact skipWs_cons_not_ws (by decide) _

/-- The round-trip of printing and parsing, proved for values and object
members simultaneously by strong induction on the parser's fuel. -/
theorem rt_bundle : ∀ fuel : Nat,
    (∀ (d : Nat) (j : Json) (rest : List Char), plainJson j = true →
      restSafe rest = true → (dumpVal d j).length + 1 ≤ fuel →
      pVal fuel (dumpVal d j ++ rest) = some (j, rest)) ∧
    (∀ (dm : Nat) (k : List Char) (v : Json) (kvs : List (List Char × Json))
        (acc : List (List Char × Json)) (ind : Nat) (rest : List Char),
      plainMembers ((k, v) :: kvs) = true →
      (∀ p ∈ (k, v) :: kvs, hasKey acc p.1 = false) →
      (dumpMembers dm ((k, v) :: kvs)).length + 2 ≤ fuel →
      pMembers fuel (dumpMembers dm ((k, v) :: kvs) ++
          nlChar :: spacesN ind ++ rcurly :: rest) acc =
        some (.obj (acc ++ (k, v) :: kvs), rest)) := by
  intro fuel
  induction fuel using Nat.strong_induction_on with
  | _ fuel ih =>
  constructor
  · -- values
    intro d j rest hpj hrs hlen
    obtain ⟨f, rfl⟩ : ∃ f, fuel = f + 1 := by
      cases fuel with
      | zero => exact absurd hlen (by omega)
      | succ f => exact ⟨f, rfl⟩
    cases j with
    | null =>
      have he : dumpVal d Json.null = 'n' :: 'u' :: 'l' :: 'l' :: [] := rfl
      rw [he]
      show pVal (f + 1) ('n' :: 'u' :: 'l' :: 'l' :: rest) = some (Json.null, rest)
      rfl
    | bool b =>
      cases b with
      | true =>
        have he : dumpVal d (Json.bool true) = 't' :: 'r' :: 'u' :: 'e' :: [] := rfl
        rw [he]
        show pVal (f + 1) ('t' :: 'r' :: 'u' :: 'e' :: rest) = some (Json.bool true, rest)
        rfl
      | false =>
        have he : dumpVal d (Json.bool false) = 'f' :: 'a' :: 'l' :: 's' :: 'e' :: [] := rfl
        rw [he]
        show pVal (f + 1) ('f' :: 'a' :: 'l' :: 's' :: 'e' :: rest) =
          some (Json.bool false, rest)
        rfl
    | int n =>
      by_cases hneg : n < 0
      · have he : dumpVal d (Json.int n) = '-' :: natChars n.natAbs := by
          show intChars n = _
          unfold intChars
          rw [if_pos hneg]
        rw [he]
        show pVal (f + 1) ('-' :: (natChars n.natAbs ++ rest)) = some (Json.int n, rest)
        have hstep : pVal (f + 1) ('-' :: (natChars n.natAbs ++ rest)) =
            (pNat (natChars n.natAbs ++ rest)).map
              (fun p => (Json.int (-(p.1 : Int)), p.2)) := rfl
        rw [hstep, pNat_natChars _ _ hrs]
        show some (Json.int (-(n.natAbs : Int)), rest) = some (Json.int n, rest)
        have hval : (-(n.natAbs : Int)) = n := by omega
        rw [hval]
      · have he : dumpVal d (Json.int n) = natChars n.toNat := by
          show intChars n = _
          unfold intChars
          rw [if_neg hneg]
        rw [he]
        obtain ⟨hne, hdigs, _, _⟩ :=
          natCharsAux_spec n.toNat n.toNat (n_lt_pow_succ n.toNat)
        obtain ⟨c0, cs, hcs⟩ : ∃ c0 cs, natChars n.toNat = c0 :: cs := by
          cases hx : natChars n.toNat with
          | nil => exact absurd hx hne
          | cons a as => exact ⟨a, as, rfl⟩
        rw [hcs]
        show pVal (f + 1) (c0 :: (cs ++ rest)) = some (Json.int n, rest)
        rw [pVal_digit f c0 (cs ++ rest) (hdigs c0 (by
          rw [show natCharsAux (n.toNat + 1) n.toNat [] = natChars n.toNat from rfl, hcs]
          simp))]
        have hp : pNat (c0 :: (cs ++ rest)) = some (n.toNat, rest) := by
          have hq := pNat_natChars n.toNat rest hrs
          rw [hcs] at hq
          exact hq
        rw [hp]
        show some (Json.int (n.toNat : Int), rest) = some (Json.int n, rest)
        have hval : ((n.toNat : Int)) = n := by omega
        rw [hval]
    | str s =>
      have hps : s.all plainChar = true := by
        have : plainJson (Json.str s) = s.all plainChar := rfl
        rw [this] at hpj
        exact hpj
      have he : dumpVal d (Json.str s) = dquote :: s ++ [dquote] := by
        show dquote :: escapeStr s ++ [dquote] = _
        rw [escapeStr_plain hps]
      rw [he]
      have hassoc : (dquote :: s ++ [dquote]) ++ rest = dquote :: (s ++ dquote :: rest) := by
        simp
      rw [hassoc]
      have hstep : pVal (f + 1) (dquote :: (s ++ dquote :: rest)) =
          (pStrBody (s ++ dquote :: rest)).map (fun p => (Json.str p.1, p.2)) := rfl
      rw [hstep, pStrBody_plain hps rest]
      rfl
    | arr xs =>
      have : plainJson (Json.arr xs) = false := rfl
      rw [this] at hpj
      cases hpj
    | obj kvs =>
      cases kvs with
      | nil =>
        have he : dumpVal d (Json.obj []) = [lcurly, rcurly] := rfl
        rw [he]
        show pVal (f + 1) (lcurly :: rcurly :: rest) = some (Json.obj [], rest)
        rfl
      | cons kv kvs' =>
        obtain ⟨k, v⟩ := kv
        have hpm : plainMembers ((k, v) :: kvs') = true := by
          have : plainJson (Json.obj ((k, v) :: kvs')) =
            plainMembers ((k, v) :: kvs') := rfl
          rw [this] at hpj
          exact hpj
        have he : dumpVal d (Json.obj ((k, v) :: kvs')) =
            lcurly :: nlChar :: spacesN (2 * (d + 1)) ++
              dumpMembers (d + 1) ((k, v) :: kvs') ++
              nlChar :: spacesN (2 * d) ++ [rcurly] := rfl
        have hmlen : (dumpMembers (d + 1) ((k, v) :: kvs')).length + 2 ≤ f := by
          rw [he] at hlen
          simp [spacesN, List.length_append] at hlen
          omega
        rw [he]
        have hnorm : (lcurly :: nlChar :: spacesN (2 * (d + 1)) ++
              dumpMembers (d + 1) ((k, v) :: kvs') ++
              nlChar :: spacesN (2 * d) ++ [rcurly]) ++ rest =
            lcurly :: (nlChar :: (spacesN (2 * (d + 1)) ++
              (dumpMembers (d + 1) ((k, v) :: kvs') ++
                (nlChar :: spacesN (2 * d) ++ rcurly :: rest)))) := by
          simp
        rw [hnorm]
        rw [show pVal (f + 1) (lcurly :: (nlChar :: (spacesN (2 * (d + 1)) ++
            (dumpMembers (d + 1) ((k, v) :: kvs') ++
              (nlChar :: spacesN (2 * d) ++ rcurly :: rest))))) =
          (match skipWs (nlChar :: (spacesN (2 * (d + 1)) ++
            (dumpMembers (d + 1) ((k, v) :: kvs') ++
              (nlChar :: spacesN (2 * d) ++ rcurly :: rest)))) with
            | [] => none
            | c2 :: r2 =>
              if c2 = rcurly then some (Json.obj [], r2)
              else pMembers f (c2 :: r2) []) from rfl]
        rw [skipWs_cons_ws (by decide), skipWs_spacesN,
          skipWs_to_members (d + 1) k v kvs' _]
        obtain ⟨t, ht⟩ : ∃ t, dumpMembers (d + 1) ((k, v) :: kvs') = dquote :: t := by
          cases kvs' <;> exact ⟨_, rfl⟩
        rw [ht, List.cons_append]
        show (if dquote = rcurly then
            some (Json.obj [], t ++ (nlChar :: spacesN (2 * d) ++ rcurly :: rest))
          else pMembers f
            (dquote :: (t ++ (nlChar :: spacesN (2 * d) ++ rcurly :: rest))) []) =
          some (Json.obj ((k, v) :: kvs'), rest)
        rw [if_neg (by decide)]
        rw [← List.cons_append, ← ht]
        have hrtm := (ih f (by omega)).2 (d + 1) k v kvs' [] (2 * d) rest hpm
          (by intro p _; rfl) hmlen
        simpa using hrtm
  · -- members
    intro dm k v kvs acc ind rest hpm hacc hlen
    obtain ⟨f, rfl⟩ : ∃ f, fuel = f + 1 := by
      cases fuel with
      | zero => exact absurd hlen (by omega)
      | succ f => exact ⟨f, rfl⟩
    -- facts from plainness
    have hkp : k.all plainChar = true := by
      have : plainMembers ((k, v) :: kvs) =
          (k.all plainChar && !(hasKey kvs k) && plainJson v && plainMembers kvs) := rfl
      rw [this] at hpm
      simp only [Bool.and_eq_true] at hpm
      exact hpm.1.1.1
    have hknew : hasKey kvs k = false := by
      have : plainMembers ((k, v) :: kvs) =
          (k.all plainChar && !(hasKey kvs k) && plainJson v && plainMembers kvs) := rfl
      rw [this] at hpm
      simp only [Bool.and_eq_true, Bool.not_eq_true'] at hpm
      exact hpm.1.1.2
    have hvp : plainJson v = true := by
      have : plainMembers ((k, v) :: kvs) =
          (k.all plainChar && !(hasKey kvs k) && plainJson v && plainMembers kvs) := rfl
      rw [this] at hpm
      simp only [Bool.and_eq_true] at hpm
      exact hpm.1.2
    have hmp : plainMembers kvs = true := by
      have : plainMembers ((k, v) :: kvs) =
          (k.all plainChar && !(hasKey kvs k) && plainJson v && plainMembers kvs) := rfl
      rw [this] at hpm
      simp only [Bool.and_eq_true] at hpm
      exact hpm.2
    have hacck : hasKey acc k = false := hacc (k, v) (by simp)
    cases kvs with
    | nil =>
      -- a single member, then the closing brace
      have he : dumpMembers dm [(k, v)] =
          dquote :: escapeStr k ++ dquote :: ':' :: ' ' :: dumpVal dm v := rfl
      have hvlen : (dumpVal dm v).length + 1 ≤ f := by
        rw [he] at hlen
        simp [List.length_append] at hlen
        omega
      obtain ⟨f2, rfl⟩ : ∃ f2, f = f2 + 1 := by
        cases f with
        | zero => exact absurd hvlen (by omega)
        | succ f2 => exact ⟨f2, rfl⟩
      rw [he, escapeStr_plain hkp]
      have hnorm : (dquote :: k ++ dquote :: ':' :: ' ' :: dumpVal dm v) ++
            nlChar :: spacesN ind ++ rcurly :: rest =
          dquote :: (k ++ dquote :: (':' :: (' ' ::
            (dumpVal dm v ++ (nlChar :: spacesN ind ++ rcurly :: rest))))) := by
        simp
      rw [hnorm]
      rw [show pMembers (f2 + 1 + 1) (dquote :: (k ++ dquote :: (':' :: (' ' ::
          (dumpVal dm v ++ (nlChar :: spacesN ind ++ rcurly :: rest)))))) acc =
        (match pStrBody (k ++ dquote :: (':' :: (' ' ::
            (dumpVal dm v ++ (nlChar :: spacesN ind ++ rcurly :: rest))))) with
          | none => none
          | some (k2, r2) =>
            match skipWs r2 with
            | ':' :: r3 =>
              match pVal (f2 + 1) r3 with
              | none => none
              | some (v2, r4) =>
                match skipWs r4 with
                | [] => none
                | c5 :: r5 =>
                  if c5 = ',' then pMembers (f2 + 1) (skipWs r5) (dictInsert acc k2 v2)
                  else if c5 = rcurly then some (Json.obj (dictInsert acc k2 v2), r5)
                  else none
            | _ => none) from rfl]
      rw [pStrBody_plain hkp]
      show (match skipWs (':' :: (' ' ::
          (dumpVal dm v ++ (nlChar :: spacesN ind ++ rcurly :: rest)))) with
        | ':' :: r3 =>
          match pVal (f2 + 1) r3 with
          | none => none
          | some (v2, r4) =>
            match skipWs r4 with
            | [] => none
            | c5 :: r5 =>
              if c5 = ',' then pMembers (f2 + 1) (skipWs r5) (dictInsert acc k v2)
              else if c5 = rcurly then some (Json.obj (dictInsert acc k v2), r5)
              else none
        | _ => none) = some (Json.obj (acc ++ [(k, v)]), rest)
      rw [skipWs_cons_not_ws (by decide)]
      show (match pVal (f2 + 1) (' ' ::
          (dumpVal dm v ++ (nlChar :: spacesN ind ++ rcurly :: rest))) with
        | none => none
        | some (v2, r4) =>
          match skipWs r4 with
          | [] => none
          | c5 :: r5 =>
            if c5 = ',' then pMembers (f2 + 1) (skipWs r5) (dictInsert acc k v2)
            else if c5 = rcurly then some (Json.obj (dictInsert acc k v2), r5)
            else none) = some (Json.obj (acc ++ [(k, v)]), rest)
      rw [pVal_skipWs f2, skipWs_cons_ws (by decide), ← pVal_skipWs f2]
      rw [(ih (f2 + 1) (by omega)).1 dm v
          (nlChar :: spacesN ind ++ rcurly :: rest) hvp (by rfl) hvlen]
      show (match skipWs (nlChar :: spacesN ind ++ rcurly :: rest) with
        | [] => none
        | c5 :: r5 =>
          if c5 = ',' then pMembers (f2 + 1) (skipWs r5) (dictInsert acc k v)
          else if c5 = rcurly then some (Json.obj (dictInsert acc k v), r5)
          else none) = some (Json.obj (acc ++ [(k, v)]), rest)
      rw [List.cons_append, skipWs_cons_ws (by decide), skipWs_spacesN,
        skipWs_cons_not_ws (by decide)]
      show (if rcurly = ',' then
          pMembers (f2 + 1) (skipWs rest) (dictInsert acc k v)
        else if rcurly = rcurly then some (Json.obj (dictInsert acc k v), rest)
        else none) = some (Json.obj (acc ++ [(k, v)]), rest)
      rw [if_neg (by decide), if_pos rfl, dictInsert_fresh acc k v hacck]
    | cons m kvs' =>
      obtain ⟨k2, v2⟩ := m
      have he : dumpMembers dm ((k, v) :: (k2, v2) :: kvs') =
          dquote :: escapeStr k ++ dquote :: ':' :: ' ' :: dumpVal dm v ++
            ',' :: nlChar :: spacesN (2 * dm) ++
            dumpMembers dm ((k2, v2) :: kvs') := rfl
      have hvlen : (dumpVal dm v).length + 1 ≤ f := by
        rw [he] at hlen
        simp [List.length_append, spacesN] at hlen
        omega
      have hmlen2 : (dumpMembers dm ((k2, v2) :: kvs')).length + 2 ≤ f := by
        rw [he] at hlen
        simp [List.length_append, spacesN] at hlen
        omega
      obtain ⟨f2, rfl⟩ : ∃ f2, f = f2 + 1 := by
        cases f with
        | zero => exact absurd hvlen (by omega)
        | succ f2 => exact ⟨f2, rfl⟩
      rw [he, escapeStr_plain hkp]
      have hnorm : (dquote :: k ++ dquote :: ':' :: ' ' :: dumpVal dm v ++
            ',' :: nlChar :: spacesN (2 * dm) ++
            dumpMembers dm ((k2, v2) :: kvs')) ++
            nlChar :: spacesN ind ++ rcurly :: rest =
          dquote :: (k ++ dquote :: (':' :: (' ' ::
            (dumpVal dm v ++ (',' :: (nlChar :: (spacesN (2 * dm) ++
              (dumpMembers dm ((k2, v2) :: kvs') ++
                (nlChar :: spacesN ind ++ rcurly :: rest))))))))) := by
        simp
      rw [hnorm]
      rw [show pMembers (f2 + 1 + 1) (dquote :: (k ++ dquote :: (':' :: (' ' ::
          (dumpVal dm v ++ (',' :: (nlChar :: (spacesN (2 * dm) ++
            (dumpMembers dm ((k2, v2) :: kvs') ++
              (nlChar :: spacesN ind ++ rcurly :: rest)))))))))) acc =
        (match pStrBody (k ++ dquote :: (':' :: (' ' ::
            (dumpVal dm v ++ (',' :: (nlChar :: (spacesN (2 * dm) ++
              (dumpMembers dm ((k2, v2) :: kvs') ++
                (nlChar :: spacesN ind ++ rcurly :: rest))))))))) with
          | none => none
          | some (kk, r2) =>
            match skipWs r2 with
            | ':' :: r3 =>
              match pVal (f2 + 1) r3 with
              | none => none
              | some (vv, r4) =>
                match skipWs r4 with
                | [] => none
                | c5 :: r5 =>
                  if c5 = ',' then pMembers (f2 + 1) (skipWs r5) (dictInsert acc kk vv)
                  else if c5 = rcurly then some (Json.obj (dictInsert acc kk vv), r5)
                  else none
            | _ => none) from rfl]
      rw [pStrBody_plain hkp]
      show (match skipWs (':' :: (' ' ::
          (dumpVal dm v ++ (',' :: (nlChar :: (spacesN (2 * dm) ++
            (dumpMembers dm ((k2, v2) :: kvs') ++
              (nlChar :: spacesN ind ++ rcurly :: rest)))))))) with
        | ':' :: r3 =>
          match pVal (f2 + 1) r3 with
          | none => none
          | some (vv, r4) =>
            match skipWs r4 with
            | [] => none
            | c5 :: r5 =>
              if c5 = ',' then pMembers (f2 + 1) (skipWs r5) (dictInsert acc k vv)
              else if c5 = rcurly then some (Json.obj (dictInsert acc k vv), r5)
              else none
        | _ => none) = some (Json.obj (acc ++ (k, v) :: (k2, v2) :: kvs'), rest)
      rw [skipWs_cons_not_ws (by decide)]
      show (match pVal (f2 + 1) (' ' ::
          (dumpVal dm v ++ (',' :: (nlChar :: (spacesN (2 * dm) ++
            (dumpMembers dm ((k2, v2) :: kvs') ++
              (nlChar :: spacesN ind ++ rcurly :: rest))))))) with
        | none => none
        | some (vv, r4) =>
          match skipWs r4 with
          | [] => none
          | c5 :: r5 =>
            if c5 = ',' then pMembers (f2 + 1) (skipWs r5) (dictInsert acc k vv)
            else if c5 = rcurly then some (Json.obj (dictInsert acc k vv), r5)
            else none) = some (Json.obj (acc ++ (k, v) :: (k2, v2) :: kvs'), rest)
      rw [pVal_skipWs f2, skipWs_cons_ws (by decide), ← pVal_skipWs f2]
      rw [(ih (f2 + 1) (by omega)).1 dm v
          (',' :: (nlChar :: (spacesN (2 * dm) ++
            (dumpMembers dm ((k2, v2) :: kvs') ++
              (nlChar :: spacesN ind ++ rcurly :: rest))))) hvp (by rfl) hvlen]
      show (match skipWs (',' :: (nlChar :: (spacesN (2 * dm) ++
          (dumpMembers dm ((k2, v2) :: kvs') ++
            (nlChar :: spacesN ind ++ rcurly :: rest))))) with
        | [] => none
        | c5 :: r5 =>
          if c5 = ',' then pMembers (f2 + 1) (skipWs r5) (dictInsert acc k v)
          else if c5 = rcurly then some (Json.obj (dictInsert acc k v), r5)
          else none) = some (Json.obj (acc ++ (k, v) :: (k2, v2) :: kvs'), rest)
      rw [skipWs_cons_not_ws (by decide)]
      show (if (',' : Char) = ',' then
          pMembers (f2 + 1) (skipWs (nlChar :: (spacesN (2 * dm) ++
            (dumpMembers dm ((k2, v2) :: kvs') ++
              (nlChar :: spacesN ind ++ rcurly :: rest)))))
            (dictInsert acc k v)
        else if (',' : Char) = rcurly then
          some (Json.obj (dictInsert acc k v),
            nlChar :: (spacesN (2 * dm) ++
              (dumpMembers dm ((k2, v2) :: kvs') ++
                (nlChar :: spacesN ind ++ rcurly :: rest))))
        else none) = some (Json.obj (acc ++ (k, v) :: (k2, v2) :: kvs'), rest)
      rw [if_pos rfl]
      rw [skipWs_cons_ws (by decide), skipWs_spacesN,
        skipWs_to_members dm k2 v2 kvs' _]
      rw [dictInsert_fresh acc k v hacck]
      have hacc2 : ∀ p ∈ (k2, v2) :: kvs', hasKey (acc ++ [(k, v)]) p.1 = false := by
        intro p hp
        rw [hasKey_append]
        have h1 : hasKey acc p.1 = false := hacc p (by simp [hp])
        have h2 : hasKey [(k, v)] p.1 = false := by
          show (if k = p.1 then true else hasKey [] p.1) = false
          rw [if_neg ?hne]
          · rfl
          case hne =>
            intro hke
            exact (hasKey_false_forall hknew p hp) (by rw [← hke])
        rw [h1, h2]
        rfl
      have hpm2 : plainMembers ((k2, v2) :: kvs') = true := hmp
      have hrec := (ih (f2 + 1) (by omega)).2 dm k2 v2 kvs' (acc ++ [(k, v)]) ind rest
        hpm2 hacc2 hmlen2
      simpa using hrec

/-- `json.loads` inverts `json.dumps` on the catalog-document domain. -/
theorem loads_dumps (j : Json) (h : plainJson j = true) : loads (dumps j) = some j := by
  unfold dumps loads
  have hrt := (rt_bundle ((dumpVal 0 j).length + 1)).1 0 j [] h rfl (by omega)
  rw [List.append_nil] at hrt
  rw [hrt]
  rfl

/-- Claim C9 (confirmed, on the modelled catalog-document domain of plain
ASCII strings): serialization is deterministic, and for every catalog
value, saving it, loading the document back and saving again — twice —
produces a byte-identical catalog document: `loads (dumps c) = some c`, so
re-saving maps the loaded value back to exactly the same bytes. -/
theorem c9_save_load_save_byte_identical (j : Json) (h : plainJson j = true) :
    loads (dumps j) = some j ∧ (loads (dumps j)).map dumps = some (dumps j) := by
  refine ⟨loads_dumps j h, ?_⟩
  rw [loads_dumps j h]
  rfl

/-- A concrete one-table catalog document for the C9 witness. -/
def c9WitDoc : Json :=
  Json.obj [(("orders").toList, Json.obj
    [(("index").toList, Json.int 0),
     (("file").toList, Json.str (("tables/0.csv").toList)),
     (("description_file").toList, Json.null),
     (("format").toList, Json.str (("csv").toList)),
     (("schema").toList, Json.str (("id").toList))])]

/-- Witness for `c9_save_load_save_byte_identical` at a concrete catalog. -/
theorem c9_save_load_save_byte_identical_witness :
    plainJson c9WitDoc = true ∧
    loads (dumps c9WitDoc) = some c9WitDoc ∧
    (loads (dumps c9WitDoc)).map dumps = some (dumps c9WitDoc) :=
  ⟨by rfl, (c9_save_load_save_byte_identical c9WitDoc (by rfl)).1,
    (c9_save_load_save_byte_identical c9WitDoc (by rfl)).2⟩

/-! ### The data-lake state and its operations (datalake.py lines 14-171) -/

/-- The distinct failures datalake.py can raise: the `ValueError`s with their
three messages, the `ValueError` from tuple-unpacking `infer_schema`'s
dict (line 85), and Python built-ins for a missing document or a
malformed catalog value. -/
inductive LakeErr where
  | duplicateName
  | unsupportedFormat
  | notFound
  | unpackError
  | fileNotFound
  | keyError
  | typeError
deriving DecidableEq

/-- The two supported formats. -/
inductive Format where
  | csv
  | parquet
deriving DecidableEq

/-- The `format` string stored in the catalog. -/
def formatStr : Format → List Char
  | .csv => ("csv").toList
  | .parquet => ("parquet").toList

/-- The DuckDB boundary: what `ddb.read_csv`/`ddb.read_parquet` report about
a file — its column names (`rel.columns`) and stringified column types
(`str(typ)` over `rel.types`) — as a function of the file's format and
bytes. -/
structure Engine where
  columns : Format → List Char → List (List Char)
  typeStrs : Format → List Char → List (List Char)

/-- Python dict construction from a pair list: later duplicate keys
overwrite in place, first position is kept. -/
def dictOfList {α : Type} (l : List (List Char × α)) : List (List Char × α) :=
  l.foldl (fun acc p => dictInsert acc p.1 p.2) []

/-- Model of `infer_schema` (datalake.py lines 29-41): the schema dict
`{col: str(typ) for col, typ in zip(rel.columns, rel.types)}`.  The
function's annotation promises `tuple[dict, int]`, but line 41 returns
only this dict — see `c3_schema_unpack_bug`. -/
def infer_schema (E : Engine) (fileFormat : Format) (data : List Char) :
    List (List Char × List Char) :=
  dictOfList ((E.columns fileFormat data).zip (E.typeStrs fileFormat data))

/-- The state of the lake: the parsed content of `metadata/catalog.json`
(`none` = file missing) and the files under `tables/`, keyed by name.
Directory creation (`mkdir(exist_ok=True)`) is a no-op at this
granularity; the document is held in parsed form — `load_catalog` parses
it on every read and `save_catalog` re-serializes it, with the byte level
covered by `dumps`/`loads` above. -/
structure LakeState where
  catalogDoc : Option Json
  tableFiles : List (List Char × List Char)

/-- Model of `ensure_structure` (datalake.py lines 14-18): create the
directories, and write `"{}"` — the empty object — when the catalog
document is missing. -/
def ensure_structure (st : LakeState) : LakeState :=
  match st.catalogDoc with
  | none => { st with catalogDoc := some (Json.obj []) }
  | some _ => st

/-- `shutil.copy` into `tables/`: write (or overwrite) a file's bytes. -/
def fsWrite (fs : List (List Char × List Char)) (name data : List Char) :
    List (List Char × List Char) :=
  dictInsert fs name data

/-- The final path component (`pathlib`'s `name`) of a plain relative
path. -/
def basename (p : List Char) : List Char :=
  (p.reverse.takeWhile (fun c => c ≠ '/')).reverse

/-- Model of `pathlib.Path(...).suffix`: the part of the final component
from its last dot, empty when the dot is leading (hidden file) or
trailing. -/
def pathSuffix (p : List Char) : List Char :=
  let n := basename p
  match n.reverse.span (fun c => c ≠ '.') with
  | (revExt, rest) =>
    match rest with
    | [] => []
    | _ :: stemRev =>
      if revExt.isEmpty || stemRev.isEmpty then [] else '.' :: revExt.reverse

/-- `str.lower()` on the ASCII range the model covers. -/
def lowerStr (s : List Char) : List Char := s.map Char.toLower

/-- The extension check of `add_table` (datalake.py lines 66-71). -/
def extFormat (ext : List Char) : Option Format :=
  if ext = (".csv").toList then some .csv
  else if ext = (".parquet").toList then some .parquet
  else none

/-- Python tuple unpacking `a, b = x` where `x` iterates like a list (a dict
iterates its keys): succeeds only on exactly two elements, otherwise
`ValueError`. -/
def unpack2 {α : Type} (l : List α) : Except LakeErr (α × α) :=
  match l with
  | [a, b] => .ok (a, b)
  | _ => .error .unpackError

/-- Model of `subprocess.run(["git", ...], check=True)`: the environment
decides success; `check=True` raises `CalledProcessError` on failure. -/
def runGit (gitOk : Bool) : Except Unit Unit :=
  if gitOk then .ok () else .error ()

/-- Model of `git_commit` (datalake.py lines 45-51): both subprocess calls
inside `try`, the `except CalledProcessError` branch only prints a
warning.  The returned list is the printed log. -/
def git_commit (gitOk : Bool) (message : List Char) : List (List Char) :=
  match runGit gitOk with
  | .ok _ => [("Git commit: ").toList ++ message]
  | .error _ => [("Git commit failed (maybe repo not initialized?)").toList]

/-- The result of an operation: its Python return/raise behaviour, the state
afterwards, and the log of the git step. -/
structure Outcome where
  res : Except LakeErr Unit
  st : LakeState
  log : List (List Char)

/-- Model of `add_table` (datalake.py lines 54-106), parameterized by the
engine and by whether the external git commands succeed.  The schema is
inferred from the copied file, whose bytes equal the source's.  Line 85
(`schema, _ = infer_schema(dst_path, file_format)`) unpacks the returned
dict: iterating a dict yields its keys, so this requires exactly two
columns and binds `schema` to the first column name. -/
def add_table (E : Engine) (gitOk : Bool) (st0 : LakeState)
    (logicalName sourceFilePath srcData : List Char)
    (descriptionData : Option (List Char)) : Outcome :=
  let st := ensure_structure st0
  match st.catalogDoc with
  | none => ⟨.error .fileNotFound, st, []⟩
  | some (.obj catalog) =>
    if hasKey catalog logicalName then ⟨.error .duplicateName, st, []⟩
    else
      let tableIndex := catalog.length
      let ext := lowerStr (pathSuffix sourceFilePath)
      match extFormat ext with
      | none => ⟨.error .unsupportedFormat, st, []⟩
      | some fileFormat =>
        let dstName := natChars tableIndex ++ ext
        let st1 : LakeState :=
          { st with tableFiles := fsWrite st.tableFiles dstName srcData }
        let descPair : Option (List Char) × LakeState :=
          match descriptionData with
          | none => (none, st1)
          | some dData =>
            let dName := natChars tableIndex ++ (".description.md").toList
            (some dName, { st1 with tableFiles := fsWrite st1.tableFiles dName dData })
        match unpack2 ((infer_schema E fileFormat srcData).map Prod.fst) with
        | .error e => ⟨.error e, descPair.2, []⟩
        | .ok (schema, _) =>
          let entry := Json.obj
            [(("index").toList, Json.int tableIndex),
             (("file").toList, Json.str (("tables/").toList ++ dstName)),
             (("description_file").toList,
               match descPair.1 with
               | some dName => Json.str (("tables/").toList ++ dName)
               | none => Json.null),
             (("format").toList, Json.str (formatStr fileFormat)),
             (("schema").toList, Json.str schema)]
          let catalog2 := dictInsert catalog logicalName entry
          let st3 : LakeState := { descPair.2 with catalogDoc := some (Json.obj catalog2) }
          ⟨.ok (), st3, git_commit gitOk (("Add table: ").toList ++ logicalName)⟩
  | some _ => ⟨.error .typeError, st, []⟩

/-- Python truthiness of a JSON value, as `if not entry:` tests it. -/
def jsonTruthy : Json → Bool
  | .null => false
  | .bool b => b
  | .int n => !(n = 0)
  | .str s => !s.isEmpty
  | .arr xs => !xs.isEmpty
  | .obj kvs => !kvs.isEmpty

/-- Model of `get_table_meta` (datalake.py lines 129-137).  It calls
`load_catalog()` without `ensure_structure()`: a missing document raises
`FileNotFoundError` from `read_text`.  `if not entry:` treats any falsy
entry as not found. -/
def get_table_meta (st : LakeState) (logicalName : List Char) : Except LakeErr Json :=
  match st.catalogDoc with
  | none => .error .fileNotFound
  | some (.obj kvs) =>
    match assoc? logicalName kvs with
    | some entry => if jsonTruthy entry then .ok entry else .error .notFound
    | none => .error .notFound
  | some _ => .error .typeError

/-- Read `meta["file"]` for each matched entry (a `KeyError` on a missing
field, a `TypeError` on a non-string or non-object), in iteration order.
The Python loop interleaves these reads with the substitutions; since an
exception discards the partially rewritten string, reading first and
substituting after is observably the same. -/
def entryFilePairs : List (List Char × Json) →
    Except LakeErr (List (List Char × List Char))
  | [] => .ok []
  | (n, .obj fields) :: rest =>
    match assoc? (("file").toList) fields with
    | some (.str f) =>
      match entryFilePairs rest with
      | .ok l => .ok ((n, f) :: l)
      | .error e => .error e
    | some _ => .error .typeError
    | none => .error .keyError
  | (_, _) :: _ => .error .typeError

/-- Model of `query_sql` (datalake.py lines 140-171): ensure the structure,
load the catalog, rewrite the matched names (the same loop as
`rewriteSql`), and hand the string to the engine.  The engine execution
returns a lazy relation and is outside the state model; the returned
value is the rewritten SQL it receives. -/
def query_sql (st0 : LakeState) (sql : List Char) :
    Except LakeErr (List Char) × LakeState :=
  let st := ensure_structure st0
  match st.catalogDoc with
  | none => (.error .fileNotFound, st)
  | some (.obj kvs) =>
    match entryFilePairs (kvs.filter (fun p => memb p.1 (wordTokens sql))) with
    | .error e => (.error e, st)
    | .ok pairs =>
      (.ok (pairs.foldl (fun s p => subWord p.1 (quotedPath p.2) s) sql), st)
  | some _ => (.error .typeError, st)

/-- The catalog mapping a state denotes: the members of the stored document,
an empty mapping when the document is missing (what `ensure_structure`
followed by `load_catalog` would produce). -/
def catalogMapping (st : LakeState) : List (List Char × Json) :=
  match st.catalogDoc with
  | some (.obj kvs) => kvs
  | some _ => []
  | none => []

/-- The entry stored under a logical name. -/
def catalogEntry (st : LakeState) (name : List Char) : Option Json :=
  match st.catalogDoc with
  | some (.obj kvs) => assoc? name kvs
  | _ => none

theorem assoc?_dictInsert_self {α : Type} (l : List (List Char × α))
    (k : List Char) (v : α) : assoc? k (dictInsert l k v) = some v := by
  induction l with
  | nil => simp [dictInsert, assoc?]
  | cons kv l ih =>
    obtain ⟨k', v'⟩ := kv
    by_cases hk : k' = k
    · subst hk
      simp [dictInsert, assoc?]
    · show assoc? k (if k' = k then (k', v) :: l else (k', v') :: dictInsert l k v) = some v
      rw [if_neg hk]
      show (if k' = k then some v' else assoc? k (dictInsert l k v)) = some v
      rw [if_neg hk, ih]

theorem ensure_preserves (st : LakeState) :
    (ensure_structure st).tableFiles = st.tableFiles ∧
    catalogMapping (ensure_structure st) = catalogMapping st := by
  cases hd : st.catalogDoc with
  | none =>
    have he : ensure_structure st = { st with catalogDoc := some (Json.obj []) } := by
      unfold ensure_structure
      rw [hd]
    rw [he]
    refine ⟨rfl, ?_⟩
    unfold catalogMapping
    rw [hd]
  | some d =>
    have he : ensure_structure st = st := by
      unfold ensure_structure
      rw [hd]
    rw [he]
    exact ⟨rfl, rfl⟩

theorem ensure_of_present {st : LakeState} {d : Json} (h : st.catalogDoc = some d) :
    ensure_structure st = st := by
  unfold ensure_structure
  rw [h]

/-- Claim C8 is contradicted by the code: `ensure_structure` does materialize
and persist an empty catalog when the document is missing, but
`get_table_meta` reads the catalog without calling it, so a metadata
lookup on a fresh system fails with the missing-file error
(`FileNotFoundError` from `read_text`), not with the not-found
`ValueError`. -/
theorem c8_fresh_lookup_hits_missing_file :
    get_table_meta ⟨none, []⟩ (("orders").toList) = .error .fileNotFound ∧
    (ensure_structure ⟨none, []⟩).catalogDoc = some (Json.obj []) ∧
    LakeErr.fileNotFound ≠ LakeErr.notFound :=
  ⟨rfl, rfl, by decide⟩

/-- Claim C10 (confirmed): running a query never modifies the catalog
mapping or any table file: the state after `query_sql` is exactly the
`ensure_structure` of the input state, which keeps every table file and
the catalog mapping (materializing only the empty document when none
existed). -/
theorem c10_query_sql_readonly (st : LakeState) (sql : List Char) :
    (query_sql st sql).2 = ensure_structure st ∧
    (ensure_structure st).tableFiles = st.tableFiles ∧
    catalogMapping (ensure_structure st) = catalogMapping st := by
  refine ⟨?_, (ensure_preserves st).1, (ensure_preserves st).2⟩
  simp only [query_sql]
  cases hd : (ensure_structure st).catalogDoc with
  | none => rfl
  | some d =>
    cases d with
    | obj kvs =>
      simp only
      cases entryFilePairs (kvs.filter (fun p => memb p.1 (wordTokens sql))) with
      | error e => rfl
      | ok pairs => rfl
    | null => rfl
    | bool b => rfl
    | int n => rfl
    | str s => rfl
    | arr xs => rfl

/-- Claim C5 (confirmed): adding a logical name already present in the
catalog fails with the duplicate-name error and returns with the state —
catalog document and table files — entirely unchanged. -/
theorem c5_duplicate_name_no_mutation (E : Engine) (g : Bool) (st : LakeState)
    (name p data : List Char) (desc : Option (List Char))
    (kvs : List (List Char × Json))
    (h1 : st.catalogDoc = some (Json.obj kvs))
    (h2 : hasKey kvs name = true) :
    add_table E g st name p data desc = ⟨.error .duplicateName, st, []⟩ := by
  simp only [add_table, ensure_of_present h1, h1, h2, if_true]

/-- Witness state for C5: one table `orders` already present. -/
def c5WitState : LakeState :=
  ⟨some (Json.obj [(("orders").toList, Json.obj [(("index").toList, Json.int 0)])]),
   [((("0.csv").toList), ("DATA").toList)]⟩

/-- Witness for `c5_duplicate_name_no_mutation` at a concrete state. -/
theorem c5_duplicate_name_no_mutation_witness :
    add_table ⟨fun _ _ => [], fun _ _ => []⟩ true c5WitState (("orders").toList)
      (("orders.csv").toList) (("D").toList) none =
      ⟨.error .duplicateName, c5WitState, []⟩ :=
  c5_duplicate_name_no_mutation _ _ _ _ _ _ _ _ rfl (by decide)

/-- Claim C6 (confirmed): with a fresh logical name, a source path whose
(lower-cased) extension is neither `.csv` nor `.parquet` is rejected with
the unsupported-format error before any mutation: no file is copied and
the catalog mapping is unchanged (the check runs after `ensure_structure`,
which only materializes the empty document when none existed). -/
theorem c6_unsupported_format_no_mutation (E : Engine) (g : Bool)
    (st : LakeState) (name p data : List Char) (desc : Option (List Char))
    (kvs : List (List Char × Json))
    (h1 : (ensure_structure st).catalogDoc = some (Json.obj kvs))
    (h2 : hasKey kvs name = false)
    (h3 : extFormat (lowerStr (pathSuffix p)) = none) :
    add_table E g st name p data desc = ⟨.error .unsupportedFormat, ensure_structure st, []⟩ ∧
    (ensure_structure st).tableFiles = st.tableFiles ∧
    catalogMapping (ensure_structure st) = catalogMapping st := by
  refine ⟨?_, (ensure_preserves st).1, (ensure_preserves st).2⟩
  simp only [add_table, h1, h2, Bool.false_eq_true, if_false, h3]

/-- Witness for `c6_unsupported_format_no_mutation`: a `.txt` source on a
fresh lake. -/
theorem c6_unsupported_format_no_mutation_witness :
    add_table ⟨fun _ _ => [], fun _ _ => []⟩ true ⟨none, []⟩ (("notes").toList)
      (("notes.txt").toList) (("D").toList) none =
      ⟨.error .unsupportedFormat, ensure_structure ⟨none, []⟩, []⟩ ∧
    (ensure_structure (⟨none, []⟩ : LakeState)).tableFiles =
      (⟨none, []⟩ : LakeState).tableFiles ∧
    catalogMapping (ensure_structure (⟨none, []⟩ : LakeState)) =
      catalogMapping (⟨none, []⟩ : LakeState) :=
  c6_unsupported_format_no_mutation _ _ _ _ _ _ _ _ rfl rfl rfl

/-- The schema dict rendered as the JSON object the catalog was meant to
store: each column name mapped to its type-name string. -/
def jsonOfSchema (m : List (List Char × List Char)) : Json :=
  Json.obj (m.map (fun p => (p.1, Json.str p.2)))

/-- The stored `schema` field of a catalog entry. -/
def schemaFieldOf (st : LakeState) (name : List Char) : Option Json :=
  match catalogEntry st name with
  | some (.obj fields) => assoc? (("schema").toList) fields
  | _ => none

/-- Engine reporting a two-column file (`id BIGINT, name VARCHAR`). -/
def c3EngineTwo : Engine :=
  ⟨fun _ _ => [("id").toList, ("name").toList],
   fun _ _ => [("BIGINT").toList, ("VARCHAR").toList]⟩

/-- Engine reporting a three-column file. -/
def c3EngineThree : Engine :=
  ⟨fun _ _ => [("id").toList, ("name").toList, ("ts").toList],
   fun _ _ => [("BIGINT").toList, ("VARCHAR").toList, ("DATE").toList]⟩

/-- Claim C3 is contradicted by the code: line 85 unpacks the dict returned
by `infer_schema` (line 41 returns only the dict, not the annotated
pair), and unpacking a dict iterates its keys.  On a two-column file the
add succeeds but stores the FIRST COLUMN NAME as the `schema` field —
not the column → type mapping the Inferencer produced — and on a file
with any other number of columns `add_table` raises `ValueError` instead
of registering the table. -/
theorem c3_schema_unpack_bug :
    (add_table c3EngineTwo true ⟨none, []⟩ (("orders").toList)
      (("orders.csv").toList) (("DATA").toList) none).res = .ok () ∧
    schemaFieldOf (add_table c3EngineTwo true ⟨none, []⟩ (("orders").toList)
      (("orders.csv").toList) (("DATA").toList) none).st (("orders").toList) =
      some (Json.str (("id").toList)) ∧
    Json.str (("id").toList) ≠
      jsonOfSchema (infer_schema c3EngineTwo .csv (("DATA").toList)) ∧
    (add_table c3EngineThree true ⟨none, []⟩ (("events").toList)
      (("events.csv").toList) (("DATA").toList) none).res =
      .error .unpackError :=
  ⟨rfl, rfl, fun h => Json.noConfusion h, rfl⟩

/-- Claim C4 (confirmed): whenever `add_table` completes — fresh name,
supported extension, and the two-column condition line 85 imposes — the
inserted Table Entry has `index` equal to the catalog's size immediately
before insertion and `file` equal to `tables/<index><ext>`, and the
copied bytes are stored under `<index><ext>` in the tables directory. -/
theorem c4_index_assignment (E : Engine) (g : Bool) (st : LakeState)
    (name p data : List Char) (kvs : List (List Char × Json)) (fmt : Format)
    (c1 c2 : List Char)
    (h1 : (ensure_structure st).catalogDoc = some (Json.obj kvs))
    (h2 : hasKey kvs name = false)
    (h3 : extFormat (lowerStr (pathSuffix p)) = some fmt)
    (h4 : unpack2 ((infer_schema E fmt data).map Prod.fst) = .ok (c1, c2)) :
    (add_table E g st name p data none).res = .ok () ∧
    catalogEntry (add_table E g st name p data none).st name =
      some (Json.obj
        [(("index").toList, Json.int kvs.length),
         (("file").toList, Json.str (("tables/").toList ++ natChars kvs.length ++
           lowerStr (pathSuffix p))),
         (("description_file").toList, Json.null),
         (("format").toList, Json.str (formatStr fmt)),
         (("schema").toList, Json.str c1)]) ∧
    assoc? (natChars kvs.length ++ lowerStr (pathSuffix p))
      (add_table E g st name p data none).st.tableFiles = some data := by
  have hstep : add_table E g st name p data none =
      ⟨.ok (),
       { catalogDoc := some (Json.obj (dictInsert kvs name (Json.obj
           [(("index").toList, Json.int kvs.length),
            (("file").toList, Json.str (("tables/").toList ++ natChars kvs.length ++
              lowerStr (pathSuffix p))),
            (("description_file").toList, Json.null),
            (("format").toList, Json.str (formatStr fmt)),
            (("schema").toList, Json.str c1)]))),
         tableFiles := fsWrite (ensure_structure st).tableFiles
           (natChars kvs.length ++ lowerStr (pathSuffix p)) data },
       git_commit g (("Add table: ").toList ++ name)⟩ := by
    simp only [add_table, h1, h2, Bool.false_eq_true, if_false, h3, h4]
    rfl
  rw [hstep]
  refine ⟨rfl, ?_, ?_⟩
  · show (match (some (Json.obj (dictInsert kvs name _)) : Option Json) with
      | some (.obj kvs2) => assoc? name kvs2
      | _ => none) = _
    exact assoc?_dictInsert_self kvs name _
  · exact assoc?_dictInsert_self (ensure_structure st).tableFiles _ data

/-- Engine for the C4 witness scenario (a two-column file, as the unpacking
on line 85 requires for a successful add). -/
def c4Engine : Engine :=
  ⟨fun _ _ => [("id").toList, ("name").toList],
   fun _ _ => [("BIGINT").toList, ("VARCHAR").toList]⟩

/-- Witness for `c4_index_assignment`, running the spec's concrete scenario:
from an empty catalog, `addTable("orders", "orders.csv")` yields index 0
and file `tables/0.csv`, and a following `addTable("returns",
"returns.parquet")` yields index 1 and file `tables/1.parquet`. -/
theorem c4_index_assignment_witness :
    (add_table c4Engine true ⟨none, []⟩ (("orders").toList)
      (("orders.csv").toList) (("DATA").toList) none).res = .ok () ∧
    catalogEntry (add_table c4Engine true ⟨none, []⟩ (("orders").toList)
      (("orders.csv").toList) (("DATA").toList) none).st (("orders").toList) =
      some (Json.obj
        [(("index").toList, Json.int 0),
         (("file").toList, Json.str (("tables/0.csv").toList)),
         (("description_file").toList, Json.null),
         (("format").toList, Json.str (("csv").toList)),
         (("schema").toList, Json.str (("id").toList))]) ∧
    catalogEntry (add_table c4Engine true
      (add_table c4Engine true ⟨none, []⟩ (("orders").toList)
        (("orders.csv").toList) (("DATA").toList) none).st
      (("returns").toList) (("returns.parquet").toList) (("D2").toList) none).st
      (("returns").toList) =
      some (Json.obj
        [(("index").toList, Json.int 1),
         (("file").toList, Json.str (("tables/1.parquet").toList)),
         (("description_file").toList, Json.null),
         (("format").toList, Json.str (("parquet").toList)),
         (("schema").toList, Json.str (("id").toList))]) :=
  ⟨(c4_index_assignment c4Engine true ⟨none, []⟩ (("orders").toList)
      (("orders.csv").toList) (("DATA").toList) _ _ _ _ rfl rfl rfl rfl).1,
   (c4_index_assignment c4Engine true ⟨none, []⟩ (("orders").toList)
      (("orders.csv").toList) (("DATA").toList) _ _ _ _ rfl rfl rfl rfl).2.1,
   (c4_index_assignment c4Engine true
      (add_table c4Engine true ⟨none, []⟩ (("orders").toList)
        (("orders.csv").toList) (("DATA").toList) none).st
      (("returns").toList) (("returns.parquet").toList) (("D2").toList)
      _ _ _ _ rfl rfl rfl rfl).2.1⟩

/-- Claim C7 (confirmed): the outcome of `add_table` — its result and the
resulting state — does not depend on whether the external git snapshot
succeeds (only the printed log differs), and a successful registration
has the entry already persisted in the catalog. -/
theorem c7_git_failure_never_propagated (E : Engine) (g : Bool) (st : LakeState)
    (name p data : List Char) (desc : Option (List Char)) :
    (add_table E g st name p data desc).res =
      (add_table E true st name p data desc).res ∧
    (add_table E g st name p data desc).st =
      (add_table E true st name p data desc).st ∧
    ((add_table E g st name p data desc).res = .ok () →
      (catalogEntry (add_table E g st name p data desc).st name).isSome = true) := by
  cases hd : (ensure_structure st).catalogDoc with
  | none => simp [add_table, hd]
  | some d =>
    cases d with
    | obj catalog =>
      by_cases hk : hasKey catalog name = true
      · simp [add_table, hd, hk]
      · have hk' : hasKey catalog name = false := by simpa using hk
        cases hx : extFormat (lowerStr (pathSuffix p)) with
        | none => simp [add_table, hd, hk', hx]
        | some fmt =>
          cases hu : unpack2 ((infer_schema E fmt data).map Prod.fst) with
          | error e => simp [add_table, hd, hk', hx, hu]
          | ok pr =>
            obtain ⟨c1, c2⟩ := pr
            simp only [add_table, hd, hk', Bool.false_eq_true, if_false, hx, hu]
            refine ⟨by trivial, by trivial, fun _ => ?_⟩
            simp only [catalogEntry, assoc?_dictInsert_self, Option.isSome_some]
    | null => simp [add_table, hd]
    | bool b => simp [add_table, hd]
    | int n => simp [add_table, hd]
    | str s => simp [add_table, hd]
    | arr xs => simp [add_table, hd]

/-- Engine for the C7 witness. -/
def c7Engine : Engine :=
  ⟨fun _ _ => [("a").toList, ("b").toList],
   fun _ _ => [("INT").toList, ("INT").toList]⟩

/-- Witness for `c7_git_failure_never_propagated`: a concrete successful add
with the git step failing. -/
theorem c7_git_failure_never_propagated_witness :
    (add_table c7Engine false ⟨none, []⟩ (("t").toList) (("t.csv").toList)
      (("D").toList) none).res =
      (add_table c7Engine true ⟨none, []⟩ (("t").toList) (("t.csv").toList)
        (("D").toList) none).res ∧
    (add_table c7Engine false ⟨none, []⟩ (("t").toList) (("t.csv").toList)
      (("D").toList) none).st =
      (add_table c7Engine true ⟨none, []⟩ (("t").toList) (("t.csv").toList)
        (("D").toList) none).st ∧
    (catalogEntry (add_table c7Engine false ⟨none, []⟩ (("t").toList)
      (("t.csv").toList) (("D").toList) none).st (("t").toList)).isSome = true :=
  ⟨(c7_git_failure_never_propagated c7Engine false ⟨none, []⟩ (("t").toList)
      (("t.csv").toList) (("D").toList) none).1,
   (c7_git_failure_never_propagated c7Engine false ⟨none, []⟩ (("t").toList)
      (("t.csv").toList) (("D").toList) none).2.1,
   (c7_git_failure_never_propagated c7Engine false ⟨none, []⟩ (("t").toList)
      (("t.csv").toList) (("D").toList) none).2.2 rfl⟩
